import Mathlib

/-!
Verification development for the batched subtitle-translation pipeline
(`srt_trans.py`).  Text is modelled as `List Char`; the source's functions
are embedded as executable Lean definitions and the specified properties
are proved about them.
-/

set_option maxHeartbeats 1000000

/-- Text, modelled as a list of characters (one Python `str`). -/
abbrev Str := List Char

/-- Python whitespace as used by `str.strip` / `str.rstrip` (ASCII part;
exotic Unicode whitespace is not exercised by the pipeline). -/
def pySpace (c : Char) : Bool :=
  c = ' ' || c = '\t' || c = '\n' || c = '\r' || c = '\x0b' || c = '\x0c'

/-- Python `str.lstrip()`. -/
def pyLstrip (l : Str) : Str := l.dropWhile pySpace

/-- Python `str.rstrip()`. -/
def pyRstrip (l : Str) : Str := (l.reverse.dropWhile pySpace).reverse

/-- Python `str.strip()`. -/
def pyStrip (l : Str) : Str := pyLstrip (pyRstrip l)

/-- Python `str.isdigit()` (ASCII digits; the pipeline only meets ASCII). -/
def pyIsdigit (l : Str) : Bool := !l.isEmpty && l.all (·.isDigit)

/-- Numeric value of a digit string (used under an `isdigit` guard). -/
def digitsVal (l : Str) : Nat := l.foldl (fun a c => a * 10 + (c.toNat - '0'.toNat)) 0

/-- Python `int(s)` on an already stripped string: optional sign followed by
digits (digit-group underscores and non-ASCII digits are not modelled). -/
def pyInt (l : Str) : Except String Int :=
  match l with
  | [] => .error "ValueError"
  | c :: rest =>
    if c = '-' then
      if pyIsdigit rest then .ok (-(digitsVal rest : Int)) else .error "ValueError"
    else if c = '+' then
      if pyIsdigit rest then .ok (digitsVal rest : Int) else .error "ValueError"
    else
      if pyIsdigit (c :: rest) then .ok (digitsVal (c :: rest) : Int) else .error "ValueError"

/-- The decimal digit characters. -/
def toDigitChar : Nat → Char
  | 0 => '0' | 1 => '1' | 2 => '2' | 3 => '3' | 4 => '4'
  | 5 => '5' | 6 => '6' | 7 => '7' | 8 => '8' | _ => '9'

/-- Most-significant-first decimal digits of `n`, prepended to `acc`; the
fuel (always at least the digit count at call sites) keeps the recursion
structural. -/
def natReprGo : Nat → Nat → Str → Str
  | 0, _, acc => acc
  | _ + 1, 0, acc => acc
  | fuel + 1, n + 1, acc => natReprGo fuel ((n + 1) / 10) (toDigitChar ((n + 1) % 10) :: acc)

/-- Decimal rendering of a natural number (Python `str` on a nonnegative int). -/
def natRepr (n : Nat) : Str := if n = 0 then ['0'] else natReprGo n n []

/-- Python `str(i)` / `f"{i}"` for an int. -/
def intRepr (n : Int) : Str :=
  if n < 0 then '-' :: natRepr n.natAbs else natRepr n.toNat

/-- Python `str.splitlines()` restricted to `'\n'` separators (the only line
separator produced or consumed by the pipeline). -/
def splitlinesL : Str → List Str
  | [] => []
  | c :: cs =>
    if c = '\n' then [] :: splitlinesL cs
    else
      match splitlinesL cs with
      | [] => [[c]]
      | line :: rest => (c :: line) :: rest

/-- `"\n".join(parts)`. -/
def joinNL (parts : List Str) : Str := List.intercalate ['\n'] parts

/-- Python `str.startswith(p)`. -/
def strStarts : Str → Str → Bool
  | [], _ => true
  | _ :: _, [] => false
  | c :: cs, d :: ds => c = d && strStarts cs ds

/-- Python `needle in hay` on strings: contiguous substring occurrence. -/
def strIn (needle : Str) : Str → Bool
  | [] => needle.isEmpty
  | l@(_ :: rest) => strStarts needle l || strIn needle rest

/-- One config value as produced by the key-value config loader (an external
collaborator per the spec); float-valued options are not modelled because no
verified claim depends on a fractional value. -/
inductive CfgVal where
  | s (v : Str)
  | i (v : Int)
  | b (v : Bool)
deriving DecidableEq

deriving instance DecidableEq for Except

/-- The loaded configuration: the entries of the config dict (unique keys). -/
abbrev Cfg := List (String × CfgVal)

/-- `cfg[key]` on the config dict: `KeyError` when absent. -/
def cfgGet (cfg : Cfg) (k : String) : Except String CfgVal :=
  match cfg.find? (fun e => e.1 = k) with
  | some e => .ok e.2
  | none => .error "KeyError"

/-- Python `int(v)` on a config value. -/
def pyIntOf : CfgVal → Except String Int
  | .i n => .ok n
  | .b true => .ok 1
  | .b false => .ok 0
  | .s v => pyInt (pyStrip v)

/-- Python `float(v)` on a config value (numeric strings not modelled). -/
def pyFloatOf : CfgVal → Except String ℚ
  | .i n => .ok (n : ℚ)
  | .b true => .ok 1
  | .b false => .ok 0
  | .s _ => .error "ValueError"

/-- `int(cfg[k])`. -/
def cfgGetInt (cfg : Cfg) (k : String) : Except String Int :=
  match cfgGet cfg k with
  | .error e => .error e
  | .ok v => pyIntOf v

-- ======= SRT =======

/-- `SrtBlock`: one subtitle unit (`idx`, verbatim timing string, text lines). -/
structure SrtBlock where
  idx : Int
  time : Str
  lines : List Str
deriving DecidableEq

/-- The block scan of `parse_srt` over the already split lines: index line,
timing line, text lines until a blank, then a blank run skipped.
`rstrip("\n")` on a split line is the identity and is therefore omitted. -/
def parseBlocksGo : Nat → List Str → Except String (List SrtBlock)
  | 0, _ => .ok []
  | _ + 1, [] => .ok []
  | fuel + 1, l :: rest =>
    if pyStrip l = [] then parseBlocksGo fuel rest
    else
      match pyInt (pyStrip l) with
      | .error e => .error e
      | .ok idx =>
        match rest with
        | [] => .error "IndexError"
        | t :: rest2 =>
          match parseBlocksGo fuel
              ((rest2.dropWhile (fun x => pyStrip x ≠ [])).dropWhile
                (fun x => pyStrip x = [])) with
          | .error e => .error e
          | .ok blocks =>
            .ok (⟨idx, pyStrip t, rest2.takeWhile (fun x => pyStrip x ≠ [])⟩ :: blocks)

/-- The full block scan (the fuel, one unit per consumed line, is ample). -/
def parseBlocks (lines : List Str) : Except String (List SrtBlock) :=
  parseBlocksGo lines.length lines

/-- `parse_srt`. -/
def parse_srt (s : Str) : Except String (List SrtBlock) := parseBlocks (splitlinesL s)

/-- The exact text `write_bi_srt_line` appends for one unit: id line, timing
line, the translated lines, the original lines, then a blank separator. -/
def write_bi_srt_line (b : SrtBlock) (zh_lines : List Str) : Str :=
  (intRepr b.idx ++ ['\n']) ++ (b.time ++ ['\n'])
    ++ (zh_lines.map (· ++ ['\n'])).flatten
    ++ (b.lines.map (· ++ ['\n'])).flatten ++ ['\n']

/-- The text written by a sequence of writer invocations. -/
def writesText (ws : List (SrtBlock × List Str)) : Str :=
  (ws.map (fun e => write_bi_srt_line e.1 e.2)).flatten

-- ======= Batch planning =======

/-- The character estimate the planner adds for one unit:
`len("\n".join(b.lines)) + 32`. -/
def addChars (b : SrtBlock) : Nat := (joinNL b.lines).length + 32

/-- The planner loop of `split_batches`: `cur` is the open batch and
`cur_chars` its accumulated character estimate. -/
def splitGo (max_blocks max_chars : Int) :
    List SrtBlock → List SrtBlock → Nat → List (List SrtBlock)
  | [], cur, _ => if cur = [] then [] else [cur]
  | b :: rest, cur, cur_chars =>
    let hit_blocks := cur ≠ [] ∧ (cur.length : Int) ≥ max_blocks
    let hit_chars := cur ≠ [] ∧ ((cur_chars + addChars b : Nat) : Int) > max_chars
    if hit_blocks ∨ hit_chars then
      cur :: splitGo max_blocks max_chars rest [b] (addChars b)
    else
      splitGo max_blocks max_chars rest (cur ++ [b]) (cur_chars + addChars b)

/-- `split_batches`. -/
def split_batches (blocks : List SrtBlock) (max_blocks max_chars : Int) :
    List (List SrtBlock) :=
  splitGo max_blocks max_chars blocks [] 0

/-- Accumulated character estimate of a whole batch. -/
def batchChars (batch : List SrtBlock) : Nat := (batch.map addChars).sum

-- ======= Marker protocol =======

/-- `mk_mark`: `f"<<<SRT:{idx:06d}>>>"`; six-digit zero padding (a sign, when
present, counts toward the width as in Python). -/
def mk_mark (idx : Int) : Str :=
  "<<<SRT:".toList ++
    (if idx < 0 then
      '-' :: (List.replicate (5 - (natRepr idx.natAbs).length) '0' ++ natRepr idx.natAbs)
    else
      List.replicate (6 - (natRepr idx.toNat).length) '0' ++ natRepr idx.toNat)
    ++ ">>>".toList

/-- The line list of a batch payload: for each unit its marker line then its
text lines (or a single empty line when it has none). -/
def batchTextLines : List SrtBlock → List Str
  | [] => []
  | b :: rest =>
    (mk_mark b.idx :: (if b.lines = [] then [[]] else b.lines)) ++ batchTextLines rest

/-- `mk_batch_text`: the joined payload plus a trailing newline. -/
def mk_batch_text (blocks : List SrtBlock) : Str := joinNL (batchTextLines blocks) ++ ['\n']

/-- Try to read one marker token `<<<SRT:dddddd>>>` (exactly six digits) at
the head of the text. -/
def matchMark : Str → Option Int
  | '<' :: '<' :: '<' :: 'S' :: 'R' :: 'T' :: ':' ::
      d1 :: d2 :: d3 :: d4 :: d5 :: d6 :: '>' :: '>' :: '>' :: _ =>
    if d1.isDigit && d2.isDigit && d3.isDigit && d4.isDigit && d5.isDigit && d6.isDigit then
      some (digitsVal [d1, d2, d3, d4, d5, d6] : Int)
    else none
  | _ => none

/-- `MARK_RE.finditer`: left-to-right non-overlapping scan; returns the
`(start position, id)` of each match.  `pos` is the absolute position of the
head of `l`. -/
def findMarksGo : Nat → Str → Nat → List (Nat × Int)
  | 0, _, _ => []
  | _ + 1, [], _ => []
  | fuel + 1, c :: rest, pos =>
    match matchMark (c :: rest) with
    | some idx => (pos, idx) :: findMarksGo fuel (rest.drop 15) (pos + 16)
    | none => findMarksGo fuel rest (pos + 1)

/-- The full marker scan (the fuel, one unit per consumed position, is ample). -/
def findMarks (l : Str) (pos : Nat) : List (Nat × Int) := findMarksGo l.length l pos

/-- A dict with `Int` keys, as an insertion-ordered association list. -/
abbrev ZhMap := List (Int × List Str)

/-- `m[k] = v` on a dict: overwrite in place, else append. -/
def setk (m : ZhMap) (k : Int) (v : List Str) : ZhMap :=
  if m.any (fun e => e.1 = k) then
    m.map (fun e => if e.1 = k then (k, v) else e)
  else m ++ [(k, v)]

/-- The keys of a dict. -/
def keysZ (m : ZhMap) : List Int := m.map (fun e => e.1)

/-- `m.get(k)` on a dict. -/
def lookupZ (m : ZhMap) (k : Int) : Option (List Str) :=
  (m.find? (fun e => e.1 = k)).map (fun e => e.2)

/-- Trim a response segment: strip, split into lines, drop blank lines,
right-strip each survivor. -/
def segLines (seg : Str) : List Str :=
  ((splitlinesL (pyStrip seg)).filter (fun x => pyStrip x ≠ [])).map pyRstrip

/-- For each marker `(pos, id)`, the lines of the text strictly between the
marker's end (`pos + 16`) and the next marker's start (or end of text). -/
def segsOf (cleaned : Str) : List (Nat × Int) → List (Int × List Str)
  | [] => []
  | (p, idx) :: rest =>
    let segEnd := match rest with
      | (p2, _) :: _ => p2
      | [] => cleaned.length
    (idx, segLines ((cleaned.take segEnd).drop (p + 16))) :: segsOf cleaned rest

/-- The response with code-fence lines removed, as in `parse_zh_map`. -/
def cleanedOf (content : Str) : Str :=
  joinNL ((splitlinesL content).filter (fun x => !(strStarts "```".toList (pyStrip x))))

/-- `parse_zh_map`: find all markers in the fence-cleaned response and bind
each id to its trimmed inter-marker segment (later duplicates overwrite). -/
def parse_zh_map (content : Str) : ZhMap :=
  (segsOf (cleanedOf content) (findMarks (cleanedOf content) 0)).foldl
    (fun m e => setk m e.1 e.2) []

-- ======= Translation calls (network modelled as an oracle) =======

/-- The config values `translate_one` / `translate_batch` touch before and at
the network call, in source order: `model`, `temperature`, then `api_key` and
`int(timeout_s)` as `post_chat` arguments. -/
def tfCfg (cfg : Cfg) : Except String Unit :=
  match cfgGet cfg "model" with
  | .error e => .error e
  | .ok _ =>
    match cfgGet cfg "temperature" with
    | .error e => .error e
    | .ok _ =>
      match cfgGet cfg "api_key" with
      | .error e => .error e
      | .ok _ =>
        match cfgGetInt cfg "timeout_s" with
        | .error e => .error e
        | .ok _ => .ok ()

/-- Post-process a reply: keep non-blank non-fence lines, right-stripped. -/
def procLines (content : Str) : List Str :=
  ((splitlinesL content).filter
    (fun x => pyStrip x ≠ [] ∧ !(strStarts "```".toList (pyStrip x)))).map pyRstrip

/-- `translate_one`; the service is the oracle `oneOr` from request text to
reply text.  Returns the lines and whether a network request was issued. -/
def translate_one (cfg : Cfg) (oneOr : Str → Str) (src_lines : List Str) :
    Except String (List Str × Bool) :=
  if src_lines = [] then .ok ([], false)
  else
    match tfCfg cfg with
    | .error e => .error e
    | .ok _ => .ok (procLines (oneOr (joinNL src_lines)), true)

/-- The fallback loop of `translate_batch`: for each unit whose id is missing
insert the single-unit result; also records which ids invoked the fallback. -/
def fillMissing (cfg : Cfg) (oneOr : Str → Str) :
    List SrtBlock → List Int → ZhMap → Except String (ZhMap × List Int)
  | [], _, zh => .ok (zh, [])
  | b :: rest, missing, zh =>
    if b.idx ∈ missing then
      match translate_one cfg oneOr b.lines with
      | .error e => .error e
      | .ok (v, _) =>
        match fillMissing cfg oneOr rest missing (setk zh b.idx v) with
        | .error e => .error e
        | .ok (zh2, calls) => .ok (zh2, b.idx :: calls)
    else fillMissing cfg oneOr rest missing zh

/-- The ids the batch expects but the decoded response lacks (the source's
`sorted(need - got)`; only membership and emptiness are consumed). -/
def missingOf (blocks : List SrtBlock) (zh0 : ZhMap) : List Int :=
  (blocks.map (fun b => b.idx)).filter (fun k => k ∉ keysZ zh0)

/-- `translate_batch` over the batch oracle `bOr` and fallback oracle `oneOr`:
decode the batch reply, then resolve every missing id through the fallback. -/
def translate_batch (cfg : Cfg) (bOr oneOr : Str → Str) (blocks : List SrtBlock) :
    Except String (ZhMap × List Int) :=
  match tfCfg cfg with
  | .error e => .error e
  | .ok _ =>
    let zh0 := parse_zh_map (bOr (mk_batch_text blocks))
    let missing := missingOf blocks zh0
    if missing = [] then .ok (zh0, [])
    else fillMissing cfg oneOr blocks missing zh0

/-- `run_batch`: translate, then the optional self-throttle pause
(`float(cfg["pause_s"])` is still evaluated; the sleep itself has no
observable effect in the model). -/
def run_batch (cfg : Cfg) (bOr oneOr : Str → Str) (batch : List SrtBlock) :
    Except String (ZhMap × List Int) :=
  match translate_batch cfg bOr oneOr batch with
  | .error e => .error e
  | .ok r =>
    match cfgGet cfg "pause_s" with
    | .error e => .error e
    | .ok v =>
      match pyFloatOf v with
      | .error e => .error e
      | .ok _ => .ok r

-- ======= Resume =======

/-- The scan of `last_idx_in_srt`: over consecutive line pairs, remember the
last purely numeric line whose successor contains `-->`. -/
def lastIdxScan : List Str → Int → Int
  | [], acc => acc
  | [_], acc => acc
  | l1 :: l2 :: rest, acc =>
    lastIdxScan (l2 :: rest)
      (if pyIsdigit (pyStrip l1) && strIn "-->".toList l2 then
        (digitsVal (pyStrip l1) : Int)
      else acc)

/-- `last_idx_in_srt` on the existing output text. -/
def last_idx_in_srt (content : Str) : Int := lastIdxScan (splitlinesL content) 0

/-- The recovered resume point (`done` in `main`). -/
def resumeDone (outExists : Bool) (outContent : Str) : Int :=
  if outExists then last_idx_in_srt outContent else 0

/-- The todo filter of `main`: keep units beyond the resume point. -/
def todoOf (blocks : List SrtBlock) (done : Int) : List SrtBlock :=
  blocks.filter (fun b => b.idx > done)

/-- `mode = "a" if done else "w"`. -/
def openAppend (done : Int) : Bool := done ≠ 0

-- ======= Orchestrator =======

/-- The pending reassembly buffer, keyed by batch sequence index. -/
abbrev Pending := List (Nat × ZhMap)

/-- Lookup in the pending buffer. -/
def lookupP (p : Pending) (k : Nat) : Option ZhMap :=
  (p.find? (fun e => e.1 = k)).map (fun e => e.2)

/-- Insert into the pending buffer (unique keys in every reachable state). -/
def insP (p : Pending) (k : Nat) (v : ZhMap) : Pending := p ++ [(k, v)]

/-- `pending.pop(k)`. -/
def eraseP (p : Pending) (k : Nat) : Pending := p.filter (fun e => e.1 ≠ k)

/-- The writer invocations for one flushed batch, each unit paired with
`zh_map[b.idx]`; a missing id is the dict `KeyError` the source would raise,
and units already written before it keep their writes. -/
def batchWrites : List SrtBlock → ZhMap → List (SrtBlock × List Str) × Option String
  | [], _ => ([], none)
  | b :: rest, zh =>
    match lookupZ zh b.idx with
    | none => ([], some "KeyError")
    | some v =>
      let r := batchWrites rest zh
      ((b, v) :: r.1, r.2)

/-- The drain loop: while the next unwritten sequence index is pending, pop
it and hand its units to the writer.  `fuel` bounds the iterations (the
caller passes the buffer size, which the loop strictly decreases). -/
def drainW (batches : List (List SrtBlock)) :
    Nat → Pending → Nat → List (SrtBlock × List Str) × Pending × Nat × Option String
  | 0, p, n => ([], p, n, none)
  | fuel + 1, p, n =>
    match lookupP p n with
    | none => ([], p, n, none)
    | some zh =>
      let p2 := eraseP p n
      let w := batchWrites (batches.getD n []) zh
      match w.2 with
      | some e => (w.1, p2, n, some e)
      | none =>
        let r := drainW batches fuel p2 (n + 1)
        (w.1 ++ r.1, r.2.1, r.2.2.1, r.2.2.2)

/-- The collection loop of `main`: process batch completions in the given
completion `order`; after each completion buffer it and drain.  Returns the
writer invocation sequence and the first fatal error, if any. -/
def mainLoop (cfg : Cfg) (bOr oneOr : Str → Str) (batches : List (List SrtBlock)) :
    List Nat → Pending → Nat → List (SrtBlock × List Str) × Option String
  | [], _, _ => ([], none)
  | i :: rest, p, n =>
    match run_batch cfg bOr oneOr (batches.getD i []) with
    | .error e => ([], some e)
    | .ok zc =>
      let p1 := insP p i zc.1
      let d := drainW batches p1.length p1 n
      match d.2.2.2 with
      | some e => (d.1, some e)
      | none =>
        let r := mainLoop cfg bOr oneOr batches rest d.2.1 d.2.2.1
        (d.1 ++ r.1, r.2)

/-- Observable checkpoints of one run. -/
inductive Ev where
  | parse
  | opened (append : Bool)
deriving DecidableEq

/-- Outcome of one run: the checkpoints reached, the output file's final
content (`none` when it never existed), and the fatal error, if any. -/
structure RunRes where
  trace : List Ev
  file : Option Str
  err : Option String
deriving DecidableEq

/-- `main`, end to end: configuration lookups in source order, parse, resume,
planning, open (append when the resume point is nonzero, else truncate), then
the concurrent phase with batch futures completing in `order`. -/
def mainRun (cfg : Cfg) (input : Str) (outExists : Bool) (outContent : Str)
    (bOr oneOr : Str → Str) (order : List Nat) : RunRes :=
  let file0 : Option Str := if outExists then some outContent else none
  match cfgGet cfg "in_srt" with
  | .error e => ⟨[], file0, some e⟩
  | .ok _ =>
    match parse_srt input with
    | .error e => ⟨[.parse], file0, some e⟩
    | .ok blocks =>
      let done := resumeDone outExists outContent
      let todo := todoOf blocks done
      if todo = [] then
        match cfgGetInt cfg "progress_len" with
        | .error e => ⟨[.parse], file0, some e⟩
        | .ok _ => ⟨[.parse], file0, none⟩
      else
        match cfgGetInt cfg "max_blocks" with
        | .error e => ⟨[.parse], file0, some e⟩
        | .ok mb =>
          match cfgGetInt cfg "max_chars" with
          | .error e => ⟨[.parse], file0, some e⟩
          | .ok mc =>
            match cfgGetInt cfg "max_workers" with
            | .error e => ⟨[.parse], file0, some e⟩
            | .ok _ =>
              match cfgGetInt cfg "progress_len" with
              | .error e => ⟨[.parse], file0, some e⟩
              | .ok _ =>
                let batches := split_batches todo mb mc
                let ap := openAppend done
                let base := if ap then (if outExists then outContent else []) else []
                let r := mainLoop cfg bOr oneOr batches order [] 0
                ⟨[.parse, .opened ap], some (base ++ writesText r.1), r.2⟩

-- ======= Derived shapes =======

/-- The lines `write_bi_srt_line` contributes to the output, as a line list. -/
def blockLines (b : SrtBlock) (zh : List Str) : List Str :=
  intRepr b.idx :: b.time :: zh ++ b.lines ++ [[]]

-- ======= Concrete fixtures for the worked examples =======

/-- Shorthand for string literals as character lists. -/
def sW (s : String) : Str := s.toList

/-- A complete configuration with every option the pipeline reads. -/
def cfgW : Cfg :=
  [("in_srt", .s (sW "a.srt")), ("model", .s (sW "m")), ("temperature", .i 1),
   ("api_key", .s (sW "k")), ("timeout_s", .i 60), ("max_blocks", .i 2),
   ("max_chars", .i 1000), ("max_workers", .i 2), ("progress_len", .i 10),
   ("pause_s", .i 0)]

/-- A three-unit subtitle input. -/
def inputW : Str :=
  sW "1\n00:00 --> 00:01\nhi\n\n2\n00:02 --> 00:03\nyo\n\n3\n00:04 --> 00:05\nzz\n"

/-- A unit with no text. -/
def blkW : SrtBlock := ⟨1, [], []⟩

/-- Six one-line units with ids 1–6. -/
def todoW : List SrtBlock :=
  [⟨1, sW "00:00 --> 00:01", [sW "a"]⟩, ⟨2, sW "00:01 --> 00:02", [sW "b"]⟩,
   ⟨3, sW "00:02 --> 00:03", [sW "c"]⟩, ⟨4, sW "00:03 --> 00:04", [sW "d"]⟩,
   ⟨5, sW "00:04 --> 00:05", [sW "e"]⟩, ⟨6, sW "00:05 --> 00:06", [sW "f"]⟩]

/-- The per-sequence-index batch results of the worked reordering run: what
`run_batch` returns for each planned batch under the echo oracle. -/
def zhmW (i : Nat) : ZhMap :=
  match run_batch cfgW id id ((split_batches todoW 2 1000).getD i []) with
  | .ok zc => zc.1
  | .error _ => []

/-- Two units for the gap-fallback example. -/
def blocksW3 : List SrtBlock := [⟨1, sW "t1", [sW "hi"]⟩, ⟨2, sW "t2", [sW "yo"]⟩]

/-- A batch reply that covers only unit 1, omitting unit 2. -/
def bOrW3 : Str → Str := fun _ => sW "<<<SRT:000001>>>\nNIHAO"

/-- The single-unit fallback reply. -/
def oneOrW3 : Str → Str := fun _ => sW "YO"

/-- A response whose first marker sits on a code-fence line and whose second
marker is followed by no content at all. -/
def contentW4 : Str := sW "```<<<SRT:000001>>>\n<<<SRT:000002>>>"

/-- The full configuration with the model name removed. -/
def cfgW8 : Cfg :=
  [("in_srt", .s (sW "a.srt")), ("temperature", .i 1),
   ("api_key", .s (sW "k")), ("timeout_s", .i 60), ("max_blocks", .i 2),
   ("max_chars", .i 1000), ("max_workers", .i 2), ("progress_len", .i 10),
   ("pause_s", .i 0)]

/-- The writer calls behind a partially completed run: the first two units of
`todoW`, each with one translated line. -/
def wsW6 : List (SrtBlock × List Str) :=
  [(⟨1, sW "00:00 --> 00:01", [sW "a"]⟩, [sW "X"]),
   (⟨2, sW "00:01 --> 00:02", [sW "b"]⟩, [sW "Y"])]

-- ======= Planner lemmas =======

theorem splitGo_flatten (mb mc : Int) (blocks : List SrtBlock) :
    ∀ cur cc, (splitGo mb mc blocks cur cc).flatten = cur ++ blocks := by
  induction blocks with
  | nil =>
    intro cur cc
    by_cases h : cur = []
    · simp [splitGo, h]
    · simp [splitGo, h]
  | cons b rest ih =>
    intro cur cc
    rw [splitGo]
    split
    · simp [ih]
    · simp [ih]

theorem batchChars_append (l1 l2 : List SrtBlock) :
    batchChars (l1 ++ l2) = batchChars l1 + batchChars l2 := by
  simp [batchChars]

theorem splitGo_bounds (mb mc : Int) (hmb : 1 ≤ mb) (blocks : List SrtBlock) :
    ∀ cur cc, cc = batchChars cur → (cur.length : Int) ≤ mb →
      (2 ≤ cur.length → (batchChars cur : Int) ≤ mc) →
      ∀ batch ∈ splitGo mb mc blocks cur cc,
        (batch.length : Int) ≤ mb ∧ (2 ≤ batch.length → (batchChars batch : Int) ≤ mc) := by
  induction blocks with
  | nil =>
    intro cur cc hcc hlen hch batch hmem
    rw [splitGo] at hmem
    split at hmem
    · simp at hmem
    · simp at hmem
      subst hmem
      exact ⟨hlen, hch⟩
  | cons b rest ih =>
    intro cur cc hcc hlen hch batch hmem
    rw [splitGo] at hmem
    split at hmem
    · rcases List.mem_cons.mp hmem with h | h
      · subst h
        exact ⟨hlen, hch⟩
      · refine ih [b] (addChars b) ?_ ?_ ?_ batch h
        · simp [batchChars]
        · simpa using hmb
        · intro h2; simp at h2
    · refine ih (cur ++ [b]) (cc + addChars b) ?_ ?_ ?_ batch hmem
      · rw [hcc, batchChars_append]; simp [batchChars]
      · rename_i hnohit
        push_neg at hnohit
        obtain ⟨hnb, _⟩ := hnohit
        by_cases hc : cur = []
        · subst hc; simpa using hmb
        · have := hnb hc
          simp only [List.length_append, List.length_cons, List.length_nil]
          push_cast
          omega
      · rename_i hnohit
        push_neg at hnohit
        obtain ⟨_, hnc⟩ := hnohit
        intro h2
        by_cases hc : cur = []
        · subst hc; simp at h2
        · have hle := hnc hc
          rw [batchChars_append]
          have : (batchChars [b] : Int) = (addChars b : Int) := by simp [batchChars]
          rw [hcc] at hle
          push_cast at hle ⊢
          simp [batchChars] at hle ⊢
          omega

-- ======= Pending-buffer lemmas =======

theorem lookupP_insP_self (p : Pending) (k : Nat) (v : ZhMap)
    (h : lookupP p k = none) : lookupP (insP p k v) k = some v := by
  have hf : p.find? (fun e => e.1 = k) = none := by
    cases hc : p.find? (fun e => e.1 = k) with
    | none => rfl
    | some e => simp [lookupP, hc] at h
  simp [lookupP, insP, List.find?_append, hf, List.find?]

theorem lookupP_insP_ne (p : Pending) (k j : Nat) (v : ZhMap)
    (h : j ≠ k) : lookupP (insP p k v) j = lookupP p j := by
  have hf : List.find? (fun e => e.1 = j) [(k, v)] = none := by
    rw [List.find?_cons_of_neg]
    · rfl
    · simp only [decide_eq_true_eq]
      exact Ne.symm h
  simp [lookupP, insP, List.find?_append, hf]

theorem lookupP_eraseP (p : Pending) (k j : Nat) :
    lookupP (eraseP p k) j = if j = k then none else lookupP p j := by
  induction p with
  | nil => simp [lookupP, eraseP]
  | cons e rest ih =>
    simp only [lookupP, eraseP] at ih ⊢
    by_cases he : e.1 = k
    · rw [List.filter_cons_of_neg (by simpa using he), ih]
      by_cases hj : j = k
      · simp [hj]
      · rw [if_neg hj, if_neg hj,
          List.find?_cons_of_neg _ (by
            simp only [decide_eq_true_eq]
            intro hc
            apply hj
            rw [← hc]
            exact he)]
    · rw [List.filter_cons_of_pos (by simpa using he)]
      by_cases hej : e.1 = j
      · have hj : ¬j = k := fun hc => he (by rw [hej, hc])
        rw [if_neg hj, List.find?_cons_of_pos _ (by simpa using hej),
          List.find?_cons_of_pos _ (by simpa using hej)]
      · rw [List.find?_cons_of_neg _ (by simpa using hej),
          List.find?_cons_of_neg _ (by simpa using hej), ih]

theorem eraseP_length_lt (p : Pending) (k : Nat)
    (h : lookupP p k ≠ none) : (eraseP p k).length < p.length := by
  induction p with
  | nil => simp [lookupP] at h
  | cons e rest ih =>
    simp only [lookupP, eraseP] at h ih ⊢
    by_cases he : e.1 = k
    · rw [List.filter_cons_of_neg (by simpa using he)]
      have hle : (List.filter (fun e => decide (e.1 ≠ k)) rest).length ≤ rest.length :=
        List.length_filter_le _ _
      simp only [List.length_cons]
      omega
    · rw [List.filter_cons_of_pos (by simpa using he)]
      rw [List.find?_cons_of_neg _ (by simpa using he)] at h
      have := ih h
      simp only [List.length_cons]
      omega

-- ======= Drain-loop lemmas =======

theorem batchWrites_ok (zh : ZhMap) (bs : List SrtBlock)
    (h : ∀ b ∈ bs, (lookupZ zh b.idx).isSome) :
    (batchWrites bs zh).2 = none ∧
      (batchWrites bs zh).1.map (fun e => e.1) = bs := by
  induction bs with
  | nil => simp [batchWrites]
  | cons b rest ih =>
    have hb := h b (by simp)
    cases hv : lookupZ zh b.idx with
    | none => rw [hv] at hb; simp at hb
    | some v =>
      have hih := ih (fun x hx => h x (by simp [hx]))
      simp [batchWrites, hv, hih.1, hih.2]

theorem drainW_ok (batches : List (List SrtBlock)) (zhm : Nat → ZhMap)
    (hcv : ∀ j, j < batches.length →
      ∀ b ∈ batches.getD j [], (lookupZ (zhm j) b.idx).isSome) :
    ∀ fuel (p : Pending) (n : Nat),
      p.length ≤ fuel →
      (∀ j v, lookupP p j = some v → v = zhm j ∧ j < batches.length) →
      ∃ c,
        (drainW batches fuel p n).2.2.2 = none ∧
        (drainW batches fuel p n).2.2.1 = n + c ∧
        (drainW batches fuel p n).1.map (fun e => e.1) =
          ((List.range' n c).map (fun j => batches.getD j [])).flatten ∧
        (∀ j, lookupP (drainW batches fuel p n).2.1 j =
          if n ≤ j ∧ j < n + c then none else lookupP p j) ∧
        (∀ j, n ≤ j → j < n + c → lookupP p j ≠ none) ∧
        lookupP (drainW batches fuel p n).2.1 (n + c) = none := by
  intro fuel
  induction fuel with
  | zero =>
    intro p n hf hv
    have hp : p = [] := List.eq_nil_of_length_eq_zero (Nat.le_zero.mp hf)
    subst hp
    refine ⟨0, by simp [drainW], by simp [drainW], by simp [drainW], ?_, ?_, ?_⟩
    · intro j
      simp only [drainW]
      rw [if_neg (by omega)]
    · intro j h1 h2
      omega
    · simp [drainW, lookupP]
  | succ fuel ih =>
    intro p n hf hv
    cases hl : lookupP p n with
    | none =>
      refine ⟨0, ?_, ?_, ?_, ?_, ?_, ?_⟩
      · simp [drainW, hl]
      · simp [drainW, hl]
      · simp [drainW, hl]
      · intro j
        simp only [drainW, hl]
        rw [if_neg (by omega)]
      · intro j h1 h2
        omega
      · simp only [drainW, hl, Nat.add_zero]
    | some zh =>
      obtain ⟨hzh, hn⟩ := hv n zh hl
      subst hzh
      have hbw := batchWrites_ok (zhm n) (batches.getD n []) (hcv n hn)
      have hp2len : (eraseP p n).length < p.length :=
        eraseP_length_lt p n (by rw [hl]; simp)
      have hv2 : ∀ j v, lookupP (eraseP p n) j = some v →
          v = zhm j ∧ j < batches.length := by
        intro j v hj
        rw [lookupP_eraseP] at hj
        split at hj
        · simp at hj
        · exact hv j v hj
      obtain ⟨c, hc1, hc2, hc3, hc4, hc5, hc6⟩ :=
        ih (eraseP p n) (n + 1) (by omega) hv2
      have hstep : drainW batches (fuel + 1) p n =
          ((batchWrites (batches.getD n []) (zhm n)).1 ++
            (drainW batches fuel (eraseP p n) (n + 1)).1,
           (drainW batches fuel (eraseP p n) (n + 1)).2.1,
           (drainW batches fuel (eraseP p n) (n + 1)).2.2.1,
           (drainW batches fuel (eraseP p n) (n + 1)).2.2.2) := by
        rw [drainW, hl]
        simp only [hbw.1]
      refine ⟨c + 1, ?_, ?_, ?_, ?_, ?_, ?_⟩
      · rw [hstep]
        exact hc1
      · rw [hstep]
        simp only [hc2]
        omega
      · rw [hstep]
        simp only [List.map_append, hbw.2, hc3]
        rw [List.range'_succ]
        simp
      · intro j
        rw [hstep]
        rw [hc4 j, lookupP_eraseP]
        split_ifs <;> first | rfl | omega
      · intro j h1 h2
        by_cases hj : j = n
        · subst hj
          rw [hl]
          simp
        · have h3 := hc5 j (by omega) (by omega)
          rw [lookupP_eraseP, if_neg hj] at h3
          exact h3
      · rw [hstep]
        have harith : n + (c + 1) = (n + 1) + c := by omega
        rw [harith]
        exact hc6

theorem mainLoop_ok (cfg : Cfg) (bOr oneOr : Str → Str)
    (batches : List (List SrtBlock)) (zhm : Nat → ZhMap)
    (hrb : ∀ i, i < batches.length →
      ∃ cs, run_batch cfg bOr oneOr (batches.getD i []) = .ok (zhm i, cs))
    (hcv : ∀ j, j < batches.length →
      ∀ b ∈ batches.getD j [], (lookupZ (zhm j) b.idx).isSome) :
    ∀ (order received : List Nat) (p : Pending) (n : Nat),
      (∀ j v, lookupP p j = some v → v = zhm j ∧ j < batches.length) →
      (∀ j, lookupP p j ≠ none ↔ j ∈ received ∧ n ≤ j) →
      (∀ j, j < n → j ∈ received) →
      lookupP p n = none →
      (received ++ order).Perm (List.range batches.length) →
      (mainLoop cfg bOr oneOr batches order p n).2 = none ∧
      (mainLoop cfg bOr oneOr batches order p n).1.map (fun e => e.1) =
        ((List.range' n (batches.length - n)).map
          (fun j => batches.getD j [])).flatten := by
  intro order
  induction order with
  | nil =>
    intro received p n hv hrec hlow hnn hperm
    simp only [List.append_nil] at hperm
    have hn_le : n ≤ batches.length := by
      by_contra hc
      push_neg at hc
      have h1 : batches.length ∈ received := hlow _ hc
      have h2 : batches.length ∈ List.range batches.length := hperm.mem_iff.mp h1
      simp at h2
    have hn_ge : batches.length ≤ n := by
      by_contra hc
      push_neg at hc
      have h1 : n ∈ received := by
        have := hperm.mem_iff.mpr (by simp [hc] : n ∈ List.range batches.length)
        exact this
      have h2 := (hrec n).mpr ⟨h1, le_refl n⟩
      exact h2 hnn
    have hn : batches.length - n = 0 := by omega
    rw [hn]
    simp [mainLoop]
  | cons i rest ih =>
    intro received p n hv hrec hlow hnn hperm
    have hiN : i < batches.length := by
      have : i ∈ List.range batches.length := hperm.mem_iff.mp (by simp)
      simpa using this
    have hnodup : (received ++ i :: rest).Nodup :=
      (List.nodup_range batches.length).perm hperm.symm
    obtain ⟨hnd1, hnd2, hdisj⟩ := List.nodup_append.mp hnodup
    have hinr : i ∉ received := fun hc => hdisj hc (by simp)
    have hni : n ≤ i := by
      by_contra hc
      push_neg at hc
      exact hinr (hlow i hc)
    obtain ⟨cs, hrbi⟩ := hrb i hiN
    have hpi : lookupP p i = none := by
      cases hpi : lookupP p i with
      | none => rfl
      | some v =>
        have := (hrec i).mp (by rw [hpi]; simp)
        exact absurd this.1 hinr
    have hp1i : lookupP (insP p i (zhm i)) i = some (zhm i) :=
      lookupP_insP_self p i (zhm i) hpi
    have hp1ne : ∀ j, j ≠ i → lookupP (insP p i (zhm i)) j = lookupP p j :=
      fun j hj => lookupP_insP_ne p i j (zhm i) hj
    have hv1 : ∀ j v, lookupP (insP p i (zhm i)) j = some v →
        v = zhm j ∧ j < batches.length := by
      intro j v hj
      by_cases hji : j = i
      · subst hji
        rw [hp1i] at hj
        cases hj
        exact ⟨rfl, hiN⟩
      · rw [hp1ne j hji] at hj
        exact hv j v hj
    have hrec1 : ∀ j, lookupP (insP p i (zhm i)) j ≠ none ↔
        j ∈ received ++ [i] ∧ n ≤ j := by
      intro j
      by_cases hji : j = i
      · subst hji
        rw [hp1i]
        simp [hni]
      · rw [hp1ne j hji, hrec j]
        constructor
        · rintro ⟨hm, hle⟩
          exact ⟨by simp [hm], hle⟩
        · rintro ⟨hm, hle⟩
          rcases List.mem_append.mp hm with h1 | h1
          · exact ⟨h1, hle⟩
          · simp at h1
            exact absurd h1 hji
    obtain ⟨c, hd1, hd2, hd3, hd4, hd5, hd6⟩ :=
      drainW_ok batches zhm hcv (insP p i (zhm i)).length (insP p i (zhm i)) n
        (le_refl _) hv1
    have hcN : n + c ≤ batches.length := by
      rcases Nat.eq_zero_or_pos c with hc0 | hc0
      · omega
      · have h1 := hd5 (n + c - 1) (by omega) (by omega)
        have h2 := ((hrec1 (n + c - 1)).mp h1).1
        have h3 : n + c - 1 ∈ List.range batches.length := by
          refine hperm.mem_iff.mp ?_
          rcases List.mem_append.mp h2 with h4 | h4
          · exact List.mem_append.mpr (Or.inl h4)
          · simp at h4
            refine List.mem_append.mpr (Or.inr ?_)
            simp [h4]
        simp at h3
        omega
    have hstep : mainLoop cfg bOr oneOr batches (i :: rest) p n =
        ((drainW batches (insP p i (zhm i)).length (insP p i (zhm i)) n).1 ++
          (mainLoop cfg bOr oneOr batches rest
            (drainW batches (insP p i (zhm i)).length (insP p i (zhm i)) n).2.1
            (drainW batches (insP p i (zhm i)).length (insP p i (zhm i)) n).2.2.1).1,
         (mainLoop cfg bOr oneOr batches rest
            (drainW batches (insP p i (zhm i)).length (insP p i (zhm i)) n).2.1
            (drainW batches (insP p i (zhm i)).length (insP p i (zhm i)) n).2.2.1).2) := by
      rw [mainLoop, hrbi]
      simp only [hd1]
    have hv2 : ∀ j v,
        lookupP (drainW batches (insP p i (zhm i)).length (insP p i (zhm i)) n).2.1 j =
          some v → v = zhm j ∧ j < batches.length := by
      intro j v hj
      rw [hd4 j] at hj
      split at hj
      · simp at hj
      · exact hv1 j v hj
    have hrec2 : ∀ j,
        lookupP (drainW batches (insP p i (zhm i)).length (insP p i (zhm i)) n).2.1 j ≠
          none ↔ j ∈ received ++ [i] ∧ n + c ≤ j := by
      intro j
      rw [hd4 j]
      split_ifs with hspl
      · constructor
        · intro hne
          exact absurd rfl hne
        · rintro ⟨_, hle⟩
          omega
      · rw [hrec1 j]
        constructor
        · rintro ⟨hm, hle⟩
          refine ⟨hm, ?_⟩
          by_cases hj2 : j < n + c
          · exact absurd ⟨hle, hj2⟩ hspl
          · omega
        · rintro ⟨hm, hle⟩
          exact ⟨hm, by omega⟩
    have hlow2 : ∀ j, j < n + c → j ∈ received ++ [i] := by
      intro j hj
      by_cases hj2 : j < n
      · exact List.mem_append.mpr (Or.inl (hlow j hj2))
      · have h1 := hd5 j (by omega) hj
        exact ((hrec1 j).mp h1).1
    have hperm2 : ((received ++ [i]) ++ rest).Perm (List.range batches.length) := by
      have : (received ++ [i]) ++ rest = received ++ i :: rest := by
        simp
      rw [this]
      exact hperm
    have hnn2 :
        lookupP (drainW batches (insP p i (zhm i)).length (insP p i (zhm i)) n).2.1
          (n + c) = none := hd6
    obtain ⟨hm1, hm2⟩ := ih (received ++ [i])
      (drainW batches (insP p i (zhm i)).length (insP p i (zhm i)) n).2.1
      (n + c) hv2 hrec2 hlow2 hnn2 hperm2
    rw [hd2] at hstep
    constructor
    · rw [hstep]
      exact hm1
    · rw [hstep]
      simp only [List.map_append, hd3, hm2]
      rw [← List.flatten_append, ← List.map_append]
      have h := List.range'_append n c (batches.length - (n + c)) 1
      rw [Nat.one_mul] at h
      rw [h]
      have h2 : batches.length - (n + c) + c = batches.length - n := by omega
      rw [h2]

theorem map_getD_range (L : List (List SrtBlock)) :
    (List.range L.length).map (fun j => L.getD j []) = L := by
  induction L with
  | nil => simp
  | cons x xs ih =>
    rw [List.length_cons, List.range_succ_eq_map]
    simp only [List.map_cons, List.map_map]
    have h2 : (List.range xs.length).map ((fun j => (x :: xs).getD j []) ∘ Nat.succ)
        = xs := by
      rw [show ((fun j => (x :: xs).getD j []) ∘ Nat.succ) =
        (fun j => xs.getD j []) from rfl]
      exact ih
    rw [h2]
    rfl

-- ======= Claim theorems: batch planning and reassembly =======

/-- C2: for every list of subtitle units and every pair of limits,
concatenating the planned batches, in batch order then intra-batch order,
yields exactly the input list. -/
theorem c2_split_batches_concat (blocks : List SrtBlock) (mb mc : Int) :
    (split_batches blocks mb mc).flatten = blocks := by
  have h := splitGo_flatten mb mc blocks [] 0
  simpa [split_batches] using h

/-- C1: whatever completion order the batch futures take, the drain loop of
the orchestrator hands units to the writer exactly in the concatenation
order of the planned batches, so output ids are strictly increasing whenever
the input ids are. -/
theorem c1_reassembly_order (todo : List SrtBlock) (mb mc : Int) (cfg : Cfg)
    (bOr oneOr : Str → Str) (order : List Nat) (zhm : Nat → ZhMap)
    (hrb : ∀ i, i < (split_batches todo mb mc).length →
      ∃ cs, run_batch cfg bOr oneOr ((split_batches todo mb mc).getD i []) =
        .ok (zhm i, cs))
    (hcv : ∀ i, i < (split_batches todo mb mc).length →
      ∀ b ∈ (split_batches todo mb mc).getD i [], (lookupZ (zhm i) b.idx).isSome)
    (hperm : order.Perm (List.range (split_batches todo mb mc).length))
    (hsorted : todo.Pairwise (fun a b => a.idx < b.idx)) :
    (mainLoop cfg bOr oneOr (split_batches todo mb mc) order [] 0).2 = none ∧
    (mainLoop cfg bOr oneOr (split_batches todo mb mc) order [] 0).1.map
      (fun e => e.1) = todo ∧
    ((mainLoop cfg bOr oneOr (split_batches todo mb mc) order [] 0).1.map
      (fun e => e.1.idx)).Pairwise (· < ·) := by
  obtain ⟨h1, h2⟩ := mainLoop_ok cfg bOr oneOr (split_batches todo mb mc) zhm hrb hcv
    order [] [] 0
    (by intro j v h; simp [lookupP] at h)
    (by intro j; simp [lookupP])
    (by intro j h; omega)
    (by simp [lookupP])
    (by simpa using hperm)
  have h3 : (mainLoop cfg bOr oneOr (split_batches todo mb mc) order [] 0).1.map
      (fun e => e.1) = todo := by
    rw [h2, Nat.sub_zero, ← List.range_eq_range', map_getD_range,
      c2_split_batches_concat]
  refine ⟨h1, h3, ?_⟩
  have h4 : (fun (e : SrtBlock × List Str) => e.1.idx) =
      (fun (b : SrtBlock) => b.idx) ∘ (fun (e : SrtBlock × List Str) => e.1) := rfl
  rw [h4, ← List.map_map, h3]
  exact List.pairwise_map.mpr hsorted

/-- C1 witness: six units planned into three batches, completing in the
scrambled order 2, 0, 1, are still written 1,2,3,4,5,6. -/
theorem c1_reassembly_order_witness :
    (mainLoop cfgW id id (split_batches todoW 2 1000) [2, 0, 1] [] 0).2 = none ∧
    (mainLoop cfgW id id (split_batches todoW 2 1000) [2, 0, 1] [] 0).1.map
      (fun e => e.1) = todoW ∧
    ((mainLoop cfgW id id (split_batches todoW 2 1000) [2, 0, 1] [] 0).1.map
      (fun e => e.1.idx)).Pairwise (· < ·) := by
  refine c1_reassembly_order todoW 2 1000 cfgW id id [2, 0, 1] zhmW ?_ ?_ ?_ (by decide)
  · intro i hi
    have hlen : (split_batches todoW 2 1000).length = 3 := by decide
    rw [hlen] at hi
    match i, hi with
    | 0, _ => exact ⟨[], by decide⟩
    | 1, _ => exact ⟨[], by decide⟩
    | 2, _ => exact ⟨[], by decide⟩
  · intro i hi
    have hlen : (split_batches todoW 2 1000).length = 3 := by decide
    rw [hlen] at hi
    match i, hi with
    | 0, _ => decide
    | 1, _ => decide
    | 2, _ => decide
  · have hlen : (split_batches todoW 2 1000).length = 3 := by decide
    rw [hlen]
    decide

/-- C5 counterexample: with `max_blocks = 0` the planner still emits a
one-unit batch, which exceeds the configured unit count. -/
theorem c5_counterexample :
    [blkW] ∈ split_batches [blkW] 0 100 ∧ ¬ ((([blkW] : List SrtBlock).length : Int) ≤ 0) := by
  decide

/-- C5 (amended): when the unit-count limit is at least one, no planned
batch exceeds it, and the accumulated character estimate of every batch
with two or more units stays within the character budget. -/
theorem c5_batch_bounds (blocks : List SrtBlock) (mb mc : Int) (hmb : 1 ≤ mb) :
    ∀ batch ∈ split_batches blocks mb mc,
      (batch.length : Int) ≤ mb ∧
        (2 ≤ batch.length → (batchChars batch : Int) ≤ mc) := by
  refine splitGo_bounds mb mc hmb blocks [] 0 ?_ ?_ ?_
  · simp [batchChars]
  · simp
    omega
  · intro h; simp at h

/-- C5 witness: the worked six-unit split obeys both bounds for
`max_blocks = 2`, `max_chars = 1000`. -/
theorem c5_batch_bounds_witness :
    (1 : Int) ≤ 2 ∧
      ∀ batch ∈ split_batches todoW 2 1000,
        (batch.length : Int) ≤ 2 ∧
          (2 ≤ batch.length → (batchChars batch : Int) ≤ 1000) :=
  ⟨by decide, c5_batch_bounds todoW 2 1000 (by decide)⟩

-- ======= String lemmas =======

theorem dropWhile_dropWhile (p : Char → Bool) (l : Str) :
    (l.dropWhile p).dropWhile p = l.dropWhile p := by
  induction l with
  | nil => simp
  | cons c cs ih =>
    rw [List.dropWhile_cons]
    split
    · exact ih
    · rw [List.dropWhile_cons]
      simp_all

theorem dropWhile_eq_self_of_mem (p : Char → Bool) (l : Str)
    (h : ∀ c ∈ l, p c = false) : l.dropWhile p = l := by
  cases l with
  | nil => simp
  | cons c cs =>
    rw [List.dropWhile_cons, if_neg (by simp [h c (by simp)])]

theorem mem_dropWhile_of_mem (p : Char → Bool) (l : Str) (c : Char)
    (hc : c ∈ l) (hp : p c = false) : c ∈ l.dropWhile p := by
  induction l with
  | nil => simp at hc
  | cons a as ih =>
    rw [List.dropWhile_cons]
    split
    · rcases List.mem_cons.mp hc with h1 | h1
      · subst h1; simp_all
      · exact ih h1
    · exact hc

theorem mem_of_mem_dropWhile (p : Char → Bool) (l : Str) (c : Char)
    (hc : c ∈ l.dropWhile p) : c ∈ l :=
  (List.dropWhile_suffix p).subset hc

theorem mem_pyStrip_of_mem (l : Str) (c : Char)
    (hc : c ∈ l) (hp : pySpace c = false) : c ∈ pyStrip l := by
  unfold pyStrip pyLstrip pyRstrip
  apply mem_dropWhile_of_mem _ _ _ _ hp
  rw [List.mem_reverse]
  apply mem_dropWhile_of_mem _ _ _ _ hp
  rw [List.mem_reverse]
  exact hc

theorem mem_of_mem_pyStrip (l : Str) (c : Char) (hc : c ∈ pyStrip l) : c ∈ l := by
  unfold pyStrip pyLstrip pyRstrip at hc
  have h1 := mem_of_mem_dropWhile _ _ _ hc
  rw [List.mem_reverse] at h1
  have h2 := mem_of_mem_dropWhile _ _ _ h1
  rw [List.mem_reverse] at h2
  exact h2

theorem pyStrip_eq_self_of_mem (l : Str) (h : ∀ c ∈ l, pySpace c = false) :
    pyStrip l = l := by
  have h1 : List.dropWhile pySpace l.reverse = l.reverse :=
    dropWhile_eq_self_of_mem _ _ (fun c hc => h c (List.mem_reverse.mp hc))
  rw [pyStrip, pyLstrip, pyRstrip, h1, List.reverse_reverse]
  exact dropWhile_eq_self_of_mem _ _ h

theorem dropWhile_cons_self_imp (p : Char → Bool) (c : Char) (t : Str)
    (h : (c :: t).dropWhile p = c :: t) : p c = false := by
  by_cases hp : p c = true
  · rw [List.dropWhile_cons, if_pos hp] at h
    have hle : (t.dropWhile p).length ≤ t.length :=
      (List.dropWhile_suffix p).sublist.length_le
    rw [h] at hle
    simp at hle
  · simpa using hp

theorem pyRstrip_pyLstrip (m : Str) (h : pyRstrip m = m) :
    pyRstrip (pyLstrip m) = pyLstrip m := by
  have hdw : m.reverse.dropWhile pySpace = m.reverse := by
    have := congrArg List.reverse h
    rwa [pyRstrip, List.reverse_reverse] at this
  cases hl : pyLstrip m with
  | nil => rfl
  | cons c t =>
    obtain ⟨pre, hpre⟩ : ∃ pre, pre ++ pyLstrip m = m := List.dropWhile_suffix pySpace
    have hprefix : ∃ post, (pyLstrip m).reverse ++ post = m.reverse :=
      ⟨pre.reverse, by rw [← List.reverse_append, hpre]⟩
    obtain ⟨post, hpost⟩ := hprefix
    rw [hl] at hpost
    have hrev : (c :: t).reverse = t.reverse ++ [c] := by simp
    cases hmr : m.reverse with
    | nil =>
      exfalso
      have : m = [] := by
        have := congrArg List.reverse hmr
        simpa using this
      rw [this] at hl
      simp [pyLstrip] at hl
    | cons d dr =>
      have hd : pySpace d = false := by
        rw [hmr] at hdw
        exact dropWhile_cons_self_imp _ _ _ hdw
      rw [hmr] at hpost
      cases hcr : (c :: t).reverse with
      | nil => simp at hcr
      | cons c2 t2 =>
        rw [hcr] at hpost
        have hc2 : c2 = d := by
          have := hpost
          simp at this
          exact this.1
        rw [pyRstrip, hcr, List.dropWhile_cons,
          if_neg (by rw [hc2, hd]; simp), ← hcr, List.reverse_reverse]

theorem pyStrip_idem (l : Str) : pyStrip (pyStrip l) = pyStrip l := by
  have h1 : pyRstrip (pyRstrip l) = pyRstrip l := by
    rw [pyRstrip, pyRstrip, List.reverse_reverse, dropWhile_dropWhile]
  have h2 := pyRstrip_pyLstrip (pyRstrip l) h1
  show pyLstrip (pyRstrip (pyLstrip (pyRstrip l))) = pyLstrip (pyRstrip l)
  rw [h2, pyLstrip, pyLstrip, dropWhile_dropWhile]

theorem splitlines_newline (rest : Str) :
    splitlinesL ('\n' :: rest) = [] :: splitlinesL rest := by
  rw [splitlinesL]
  simp

theorem splitlines_append_line (line rest : Str) (h : '\n' ∉ line) :
    splitlinesL (line ++ '\n' :: rest) = line :: splitlinesL rest := by
  induction line with
  | nil => simpa using splitlines_newline rest
  | cons c cs ih =>
    have hc : c ≠ '\n' := fun hcc => h (by simp [hcc])
    have hcs := ih (fun hcc => h (by simp [hcc]))
    rw [List.cons_append, splitlinesL]
    rw [if_neg hc, hcs]

theorem splitlines_noNL (s : Str) : ∀ x ∈ splitlinesL s, '\n' ∉ x := by
  induction s with
  | nil => simp [splitlinesL]
  | cons c cs ih =>
    intro x hx
    rw [splitlinesL] at hx
    by_cases hc : c = '\n'
    · rw [if_pos hc] at hx
      rcases List.mem_cons.mp hx with h1 | h1
      · subst h1; simp
      · exact ih x h1
    · rw [if_neg hc] at hx
      cases hsp : splitlinesL cs with
      | nil =>
        rw [hsp] at hx
        simp at hx
        subst hx
        intro hmem
        simp at hmem
        exact hc hmem.symm
      | cons line rest =>
        rw [hsp] at hx
        rcases List.mem_cons.mp hx with h1 | h1
        · subst h1
          intro hmem
          rcases List.mem_cons.mp hmem with h2 | h2
          · exact hc h2.symm
          · exact ih line (by rw [hsp]; simp) h2
        · exact ih x (by rw [hsp]; simp [h1])

-- ======= Decimal rendering lemmas =======

theorem natReprGo_append (fuel : Nat) :
    ∀ n acc, natReprGo fuel n acc = natReprGo fuel n [] ++ acc := by
  induction fuel with
  | zero => intro n acc; simp [natReprGo]
  | succ fuel ih =>
    intro n acc
    cases n with
    | zero => simp [natReprGo]
    | succ m =>
      rw [natReprGo, natReprGo, ih ((m + 1) / 10) (toDigitChar ((m + 1) % 10) :: acc),
        ih ((m + 1) / 10) [toDigitChar ((m + 1) % 10)]]
      simp

theorem natReprGo_fuel (f1 : Nat) : ∀ f2 n acc, n ≤ f1 → n ≤ f2 →
    natReprGo f1 n acc = natReprGo f2 n acc := by
  induction f1 with
  | zero =>
    intro f2 n acc h1 h2
    have : n = 0 := by omega
    subst this
    cases f2 <;> simp [natReprGo]
  | succ f1 ih =>
    intro f2 n acc h1 h2
    cases n with
    | zero => cases f2 <;> simp [natReprGo]
    | succ m =>
      cases f2 with
      | zero => omega
      | succ f2 =>
        rw [natReprGo, natReprGo]
        have hq : (m + 1) / 10 < m + 1 := Nat.div_lt_self (by omega) (by omega)
        exact ih f2 ((m + 1) / 10) _ (by omega) (by omega)

theorem toDigitChar_mem (d : Nat) :
    toDigitChar d ∈ ['0', '1', '2', '3', '4', '5', '6', '7', '8', '9'] := by
  rcases d with _|_|_|_|_|_|_|_|_|d <;> simp [toDigitChar]

theorem natReprGo_chars (fuel : Nat) : ∀ n acc,
    (∀ c ∈ acc, c ∈ ['0', '1', '2', '3', '4', '5', '6', '7', '8', '9']) →
    ∀ c ∈ natReprGo fuel n acc,
      c ∈ ['0', '1', '2', '3', '4', '5', '6', '7', '8', '9'] := by
  induction fuel with
  | zero => intro n acc hacc; simpa [natReprGo] using hacc
  | succ fuel ih =>
    intro n acc hacc
    cases n with
    | zero => simpa [natReprGo] using hacc
    | succ m =>
      rw [natReprGo]
      refine ih _ _ ?_
      intro c hc
      rcases List.mem_cons.mp hc with h1 | h1
      · subst h1; exact toDigitChar_mem _
      · exact hacc c h1

theorem natRepr_chars (n : Nat) :
    ∀ c ∈ natRepr n, c ∈ ['0', '1', '2', '3', '4', '5', '6', '7', '8', '9'] := by
  rw [natRepr]
  split
  · simp
  · exact natReprGo_chars n n [] (by simp)

theorem natRepr_ne_nil (n : Nat) : natRepr n ≠ [] := by
  rw [natRepr]
  split
  · simp
  · rename_i hn
    cases n with
    | zero => exact absurd rfl hn
    | succ m =>
      rw [natReprGo, natReprGo_append]
      simp

theorem digitsVal_append_one (xs : Str) (c : Char) :
    digitsVal (xs ++ [c]) = digitsVal xs * 10 + (c.toNat - '0'.toNat) := by
  rw [digitsVal, List.foldl_append]
  rfl

theorem toDigitChar_val (d : Nat) (h : d < 10) :
    (toDigitChar d).toNat - '0'.toNat = d := by
  interval_cases d <;> decide

theorem digitsVal_natRepr (n : Nat) : digitsVal (natRepr n) = n := by
  induction n using Nat.strong_induction_on with
  | _ n ih =>
    rw [natRepr]
    split
    · rename_i h0
      subst h0
      decide
    · rename_i hn
      cases n with
      | zero => exact absurd rfl hn
      | succ m =>
        rw [natReprGo, natReprGo_append]
        have hq : (m + 1) / 10 < m + 1 := Nat.div_lt_self (by omega) (by omega)
        rw [natReprGo_fuel m ((m + 1) / 10) ((m + 1) / 10) [] (by omega) (le_refl _)]
        rw [digitsVal_append_one, toDigitChar_val _ (Nat.mod_lt _ (by omega))]
        by_cases hq0 : (m + 1) / 10 = 0
        · rw [hq0]
          have : natReprGo 0 0 ([] : Str) = [] := by simp [natReprGo]
          rw [show natReprGo ((0:Nat)) 0 ([] : Str) = [] from rfl]
          have hd : digitsVal [] = 0 := rfl
          rw [hd]
          omega
        · have hrepr : natReprGo ((m + 1) / 10) ((m + 1) / 10) [] = natRepr ((m + 1) / 10) := by
            rw [natRepr, if_neg hq0]
          rw [hrepr, ih _ hq]
          omega

theorem pyIsdigit_natRepr (n : Nat) : pyIsdigit (natRepr n) = true := by
  rw [pyIsdigit]
  have h1 : natRepr n ≠ [] := natRepr_ne_nil n
  have h2 : (natRepr n).all (·.isDigit) = true := by
    rw [List.all_eq_true]
    intro c hc
    have := natRepr_chars n c hc
    fin_cases this <;> decide
  simp [h2, List.isEmpty_iff, h1]

theorem natRepr_no_space (n : Nat) : ∀ c ∈ natRepr n, pySpace c = false := by
  intro c hc
  have := natRepr_chars n c hc
  fin_cases this <;> decide

theorem natRepr_no_newline (n : Nat) : '\n' ∉ natRepr n := by
  intro hc
  have := natRepr_chars n _ hc
  simp at this

theorem pyInt_natRepr (n : Nat) : pyInt (natRepr n) = .ok (n : Int) := by
  cases hr : natRepr n with
  | nil => exact absurd hr (natRepr_ne_nil n)
  | cons c cs =>
    have hc : c ∈ ['0', '1', '2', '3', '4', '5', '6', '7', '8', '9'] := by
      apply natRepr_chars n
      rw [hr]
      simp
    have hcm : c ≠ '-' := by fin_cases hc <;> decide
    have hcp : c ≠ '+' := by fin_cases hc <;> decide
    have hdig : pyIsdigit (c :: cs) = true := by
      rw [← hr]; exact pyIsdigit_natRepr n
    rw [pyInt]
    rw [if_neg hcm, if_neg hcp, if_pos hdig, ← hr, digitsVal_natRepr]

theorem intRepr_no_newline (n : Int) : '\n' ∉ intRepr n := by
  rw [intRepr]
  split
  · intro hc
    rcases List.mem_cons.mp hc with h1 | h1
    · simp at h1
    · exact natRepr_no_newline _ h1
  · exact natRepr_no_newline _

theorem intRepr_ne_nil (n : Int) : intRepr n ≠ [] := by
  rw [intRepr]
  split
  · simp
  · exact natRepr_ne_nil _

theorem intRepr_no_space (n : Int) : ∀ c ∈ intRepr n, pySpace c = false := by
  rw [intRepr]
  split
  · intro c hc
    rcases List.mem_cons.mp hc with h1 | h1
    · subst h1; decide
    · exact natRepr_no_space _ c h1
  · exact natRepr_no_space _

theorem pyStrip_intRepr (n : Int) : pyStrip (intRepr n) = intRepr n :=
  pyStrip_eq_self_of_mem _ (intRepr_no_space n)

theorem pyInt_intRepr (n : Int) : pyInt (intRepr n) = .ok n := by
  rw [intRepr]
  split
  · rename_i hneg
    cases hr : natRepr n.natAbs with
    | nil => exact absurd hr (natRepr_ne_nil _)
    | cons c cs =>
      rw [pyInt, if_pos rfl, ← hr, if_pos (pyIsdigit_natRepr _), digitsVal_natRepr]
      congr 1
      omega
  · rename_i hneg
    rw [pyInt_natRepr]
    congr 1
    omega

-- ======= Round-trip lemmas =======

theorem splitlines_chunks (ls : List Str) (rest : Str)
    (h : ∀ x ∈ ls, '\n' ∉ x) :
    splitlinesL ((ls.map (· ++ ['\n'])).flatten ++ rest) = ls ++ splitlinesL rest := by
  induction ls with
  | nil => simp
  | cons x xs ih =>
    simp only [List.map_cons, List.flatten_cons, List.append_assoc,
      List.cons_append, List.nil_append]
    rw [splitlines_append_line _ _ (h x (by simp))]
    rw [ih (fun y hy => h y (by simp [hy]))]

theorem splitlines_write (b : SrtBlock) (zh : List Str) (rest : Str)
    (ht : '\n' ∉ b.time) (hzh : ∀ x ∈ zh, '\n' ∉ x)
    (hl : ∀ x ∈ b.lines, '\n' ∉ x) :
    splitlinesL (write_bi_srt_line b zh ++ rest) =
      blockLines b zh ++ splitlinesL rest := by
  rw [write_bi_srt_line, blockLines]
  simp only [List.append_assoc, List.cons_append, List.nil_append]
  rw [splitlines_append_line _ _ (intRepr_no_newline b.idx)]
  rw [splitlines_append_line _ _ ht]
  rw [splitlines_chunks _ _ hzh]
  rw [splitlines_chunks _ _ hl]
  rw [splitlines_newline]

theorem splitlines_writesText (ws : List (SrtBlock × List Str))
    (h : ∀ e ∈ ws, '\n' ∉ e.1.time ∧ (∀ x ∈ e.2, '\n' ∉ x) ∧
      ∀ x ∈ e.1.lines, '\n' ∉ x) :
    splitlinesL (writesText ws) =
      (ws.map (fun e => blockLines e.1 e.2)).flatten := by
  induction ws with
  | nil => simp [writesText, splitlinesL]
  | cons e ws ih =>
    obtain ⟨h1, h2, h3⟩ := h e (by simp)
    have hw : writesText (e :: ws) =
        write_bi_srt_line e.1 e.2 ++ writesText ws := by
      simp [writesText]
    rw [hw, splitlines_write _ _ _ h1 h2 h3, ih (fun x hx => h x (by simp [hx]))]
    simp

theorem takeWhile_append_all (p : Str → Bool) (xs ys : List Str)
    (h : ∀ x ∈ xs, p x = true) :
    (xs ++ ys).takeWhile p = xs ++ ys.takeWhile p := by
  induction xs with
  | nil => simp
  | cons x xs ih =>
    rw [List.cons_append, List.takeWhile_cons, if_pos (h x (by simp)),
      ih (fun y hy => h y (by simp [hy]))]
    rfl

theorem dropWhile_append_all (p : Str → Bool) (xs ys : List Str)
    (h : ∀ x ∈ xs, p x = true) :
    (xs ++ ys).dropWhile p = ys.dropWhile p := by
  induction xs with
  | nil => simp
  | cons x xs ih =>
    rw [List.cons_append, List.dropWhile_cons, if_pos (h x (by simp))]
    exact ih (fun y hy => h y (by simp [hy]))

theorem parseBlocksGo_wf (fuel : Nat) : ∀ (lines : List Str),
    (∀ l ∈ lines, '\n' ∉ l) →
    ∀ bs, parseBlocksGo fuel lines = .ok bs →
    ∀ b ∈ bs, pyStrip b.time = b.time ∧ '\n' ∉ b.time ∧
      ∀ x ∈ b.lines, pyStrip x ≠ [] ∧ '\n' ∉ x := by
  induction fuel with
  | zero =>
    intro lines hnl bs hok b hb
    rw [parseBlocksGo] at hok
    cases hok
    simp at hb
  | succ fuel ih =>
    intro lines hnl bs hok b hb
    cases lines with
    | nil =>
      rw [parseBlocksGo] at hok
      cases hok
      simp at hb
    | cons l rest =>
      by_cases hblank : pyStrip l = []
      · rw [parseBlocksGo, if_pos hblank] at hok
        exact ih rest (fun x hx => hnl x (by simp [hx])) bs hok b hb
      · cases hpi : pyInt (pyStrip l) with
        | error e =>
          rw [parseBlocksGo, if_neg hblank, hpi] at hok
          simp at hok
        | ok idx =>
          rw [parseBlocksGo, if_neg hblank, hpi] at hok
          cases rest with
          | nil => simp at hok
          | cons t rest2 =>
            have hok2 : (match parseBlocksGo fuel
                ((rest2.dropWhile (fun x => pyStrip x ≠ [])).dropWhile
                  (fun x => pyStrip x = [])) with
              | Except.error e => Except.error e
              | Except.ok blocks =>
                Except.ok
                  ((⟨idx, pyStrip t, rest2.takeWhile (fun x => pyStrip x ≠ [])⟩ :
                    SrtBlock) :: blocks)) = Except.ok bs := hok
            clear hok
            cases hrec : parseBlocksGo fuel
                ((rest2.dropWhile (fun x => pyStrip x ≠ [])).dropWhile
                  (fun x => pyStrip x = [])) with
            | error e =>
              rw [hrec] at hok2
              simp at hok2
            | ok blocks =>
              rw [hrec] at hok2
              simp only [] at hok2
              cases hok2
              rcases List.mem_cons.mp hb with h1 | h1
              · subst h1
                refine ⟨pyStrip_idem t, ?_, ?_⟩
                · intro hc
                  exact hnl t (by simp) (mem_of_mem_pyStrip t '\n' hc)
                · intro x hx
                  constructor
                  · have := List.mem_takeWhile_imp hx
                    simpa using this
                  · have hx2 : x ∈ rest2 := List.takeWhile_prefix _ |>.subset hx
                    exact hnl x (by simp [hx2])
              · refine ih _ ?_ blocks hrec b h1
                intro x hx
                have hx2 : x ∈ rest2 :=
                  (List.dropWhile_suffix _).subset
                    ((List.dropWhile_suffix _).subset hx)
                exact hnl x (by simp [hx2])

theorem dropblank_flatten (bs : List SrtBlock) :
    ((bs.map (fun b => blockLines b [])).flatten).dropWhile
      (fun x => pyStrip x = []) = (bs.map (fun b => blockLines b [])).flatten := by
  cases bs with
  | nil => simp
  | cons b rest =>
    simp only [List.map_cons, List.flatten_cons, blockLines, List.cons_append]
    rw [List.dropWhile_cons,
      if_neg (by simp [pyStrip_intRepr, intRepr_ne_nil b.idx])]

theorem parseBlocksGo_step (fuel : Nat) (l t : Str) (rest2 : List Str) (idx : Int)
    (hblank : ¬ pyStrip l = []) (hpi : pyInt (pyStrip l) = .ok idx) :
    parseBlocksGo (fuel + 1) (l :: t :: rest2) =
      match parseBlocksGo fuel
          ((rest2.dropWhile (fun x => pyStrip x ≠ [])).dropWhile
            (fun x => pyStrip x = [])) with
      | .error e => .error e
      | .ok blocks =>
        .ok (⟨idx, pyStrip t, rest2.takeWhile (fun x => pyStrip x ≠ [])⟩ :: blocks) := by
  rw [parseBlocksGo, if_neg hblank, hpi]

theorem parse_write_blocks (bs : List SrtBlock)
    (hwf : ∀ b ∈ bs, pyStrip b.time = b.time ∧ ∀ x ∈ b.lines, pyStrip x ≠ []) :
    ∀ fuel, ((bs.map (fun b => blockLines b [])).flatten).length ≤ fuel →
    parseBlocksGo fuel ((bs.map (fun b => blockLines b [])).flatten) = .ok bs := by
  induction bs with
  | nil =>
    intro fuel hf
    cases fuel <;> simp [parseBlocksGo]
  | cons b rest ih =>
    intro fuel hf
    have hexp : ((b :: rest).map (fun b => blockLines b [])).flatten =
        intRepr b.idx :: b.time ::
          (b.lines ++ [] :: (rest.map (fun b => blockLines b [])).flatten) := by
      simp [blockLines]
    rw [hexp] at hf ⊢
    cases fuel with
    | zero => simp at hf
    | succ fuel =>
      have hpred : ∀ x ∈ b.lines, (fun x => decide (pyStrip x ≠ [])) x = true := by
        intro x hx
        simp [(hwf b (by simp)).2 x hx]
      have htk : (b.lines ++ [] :: (rest.map (fun b => blockLines b [])).flatten).takeWhile
          (fun x => pyStrip x ≠ []) = b.lines := by
        rw [takeWhile_append_all _ _ _ hpred, List.takeWhile_cons]
        rw [if_neg (by decide)]
        simp
      have hdr : (b.lines ++ [] :: (rest.map (fun b => blockLines b [])).flatten).dropWhile
          (fun x => pyStrip x ≠ []) =
          [] :: (rest.map (fun b => blockLines b [])).flatten := by
        rw [dropWhile_append_all _ _ _ hpred, List.dropWhile_cons]
        rw [if_neg (by decide)]
      rw [parseBlocksGo_step fuel (intRepr b.idx) b.time _ b.idx
        (by rw [pyStrip_intRepr]; exact intRepr_ne_nil b.idx)
        (by rw [pyStrip_intRepr]; exact pyInt_intRepr b.idx)]
      rw [hdr]
      rw [List.dropWhile_cons, if_pos (by decide)]
      rw [dropblank_flatten]
      rw [ih (fun x hx => hwf x (by simp [hx])) fuel (by
        simp only [List.length_cons, List.length_append] at hf ⊢
        omega)]
      show Except.ok ((⟨b.idx, pyStrip b.time,
        (b.lines ++ [] :: (rest.map (fun b => blockLines b [])).flatten).takeWhile
          (fun x => pyStrip x ≠ [])⟩ : SrtBlock) :: rest) = Except.ok (b :: rest)
      rw [htk, (hwf b (by simp)).1]

/-- C7: for well-formed input, writing the parsed blocks back with the
identity translation (no translated lines inserted, so each written block
reproduces the original block shape) and reparsing yields the same ids,
timing strings and text lines. -/
theorem c7_parse_write_roundtrip (s : Str) (bs : List SrtBlock)
    (h : parse_srt s = .ok bs) :
    parse_srt (writesText (bs.map (fun b => (b, [])))) = .ok bs := by
  have hnl : ∀ l ∈ splitlinesL s, '\n' ∉ l := splitlines_noNL s
  have hwf := parseBlocksGo_wf (splitlinesL s).length (splitlinesL s) hnl bs h
  have hsl : splitlinesL (writesText (bs.map (fun b => (b, [])))) =
      (bs.map (fun b => blockLines b [])).flatten := by
    rw [splitlines_writesText]
    · rw [List.map_map]
      rfl
    · intro e he
      simp only [List.mem_map] at he
      obtain ⟨b, hb, hbe⟩ := he
      subst hbe
      refine ⟨(hwf b hb).2.1, by simp, ?_⟩
      intro x hx
      exact ((hwf b hb).2.2 x hx).2
  rw [parse_srt, parseBlocks, hsl]
  exact parse_write_blocks bs
    (fun b hb => ⟨(hwf b hb).1, fun x hx => ((hwf b hb).2.2 x hx).1⟩)
    _ (le_refl _)

/-- C7 witness: the three-unit worked input round-trips. -/
theorem c7_parse_write_roundtrip_witness :
    parse_srt (writesText (((parse_srt inputW).toOption.getD []).map
      (fun b => (b, [])))) = .ok ((parse_srt inputW).toOption.getD []) :=
  c7_parse_write_roundtrip inputW ((parse_srt inputW).toOption.getD []) (by decide)

-- ======= Resume lemmas =======

theorem strIn_head_mem (c : Char) (cs hay : Str) (h : strIn (c :: cs) hay = true) :
    c ∈ hay := by
  induction hay with
  | nil => simp [strIn] at h
  | cons d ds ih =>
    rw [strIn] at h
    rw [Bool.or_eq_true] at h
    rcases h with h1 | h1
    · rw [strStarts] at h1
      have : c = d := by
        rw [Bool.and_eq_true] at h1
        simpa using h1.1
      simp [this]
    · simp [ih h1]

theorem pyIsdigit_false_of_arrow (l : Str) (h : strIn "-->".toList l = true) :
    pyIsdigit (pyStrip l) = false := by
  have hd : '-' ∈ l := strIn_head_mem '-' _ l h
  have hd2 : '-' ∈ pyStrip l := mem_pyStrip_of_mem _ _ hd (by decide)
  cases hall : (pyStrip l).all (·.isDigit) with
  | false => simp [pyIsdigit, hall]
  | true =>
    rw [List.all_eq_true] at hall
    exact absurd (hall '-' hd2) (by decide)

theorem lastIdxScan_skip (ls : List Str) :
    ∀ (rest : List Str) (acc : Int),
      (∀ l ∈ ls, pyIsdigit (pyStrip l) = false) →
      lastIdxScan (ls ++ rest) acc = lastIdxScan rest acc := by
  induction ls with
  | nil => intro rest acc _; rfl
  | cons l ls ih =>
    intro rest acc h
    cases hlr : ls ++ rest with
    | nil =>
      obtain ⟨hls, hrest⟩ := List.append_eq_nil.mp hlr
      subst hls
      subst hrest
      rfl
    | cons l2 r2 =>
      rw [List.cons_append, hlr, lastIdxScan, ← hlr]
      rw [h l (by simp)]
      simp only [Bool.false_and]
      rw [if_neg (by decide)]
      exact ih rest acc (fun x hx => h x (by simp [hx]))

theorem lastIdxScan_block (b : SrtBlock) (zh : List Str) (rest : List Str)
    (acc : Int) (hidx : 1 ≤ b.idx) (htime : strIn "-->".toList b.time = true)
    (hzh : ∀ l ∈ zh, pyIsdigit (pyStrip l) = false)
    (hlines : ∀ l ∈ b.lines, pyIsdigit (pyStrip l) = false) :
    lastIdxScan (blockLines b zh ++ rest) acc = lastIdxScan rest b.idx := by
  have hrepr : intRepr b.idx = natRepr b.idx.toNat := by
    rw [intRepr, if_neg (by omega)]
  have hval : (b.idx.toNat : Int) = b.idx := by omega
  rw [blockLines]
  simp only [List.cons_append, List.append_assoc, List.nil_append]
  rw [show lastIdxScan
        (intRepr b.idx :: b.time :: (zh ++ (b.lines ++ [] :: rest))) acc
      = lastIdxScan (b.time :: (zh ++ (b.lines ++ [] :: rest)))
        (if pyIsdigit (pyStrip (intRepr b.idx)) && strIn "-->".toList b.time
          then ((digitsVal (pyStrip (intRepr b.idx)) : Int)) else acc) from rfl]
  rw [pyStrip_intRepr, hrepr, pyIsdigit_natRepr, htime]
  simp only [Bool.and_self, if_true]
  rw [digitsVal_natRepr, hval]
  have hskip := lastIdxScan_skip (b.time :: (zh ++ b.lines ++ [[]])) rest b.idx (by
    intro l hl
    rcases List.mem_cons.mp hl with h1 | h1
    · subst h1
      exact pyIsdigit_false_of_arrow _ htime
    · rcases List.mem_append.mp h1 with h2 | h2
      · rcases List.mem_append.mp h2 with h3 | h3
        · exact hzh l h3
        · exact hlines l h3
      · simp at h2
        subst h2
        decide)
  simp only [List.cons_append, List.append_assoc, List.nil_append] at hskip
  exact hskip

theorem foldl_getLastD (ws : List (SrtBlock × List Str)) :
    ∀ acc : Int, ws.foldl (fun _ e => e.1.idx) acc =
      ((ws.map (fun e => e.1.idx)).getLastD acc) := by
  induction ws with
  | nil => intro acc; rfl
  | cons e ws ih =>
    intro acc
    rw [List.foldl_cons, ih, List.map_cons, List.getLastD_cons]

theorem lastIdxScan_writes (ws : List (SrtBlock × List Str))
    (h : ∀ e ∈ ws, 1 ≤ e.1.idx ∧ strIn "-->".toList e.1.time = true ∧
      (∀ l ∈ e.2, pyIsdigit (pyStrip l) = false) ∧
      (∀ l ∈ e.1.lines, pyIsdigit (pyStrip l) = false)) :
    ∀ acc, lastIdxScan ((ws.map (fun e => blockLines e.1 e.2)).flatten) acc =
      ws.foldl (fun _ e => e.1.idx) acc := by
  induction ws with
  | nil => intro acc; rfl
  | cons e ws ih =>
    intro acc
    obtain ⟨h1, h2, h3, h4⟩ := h e (by simp)
    rw [List.map_cons, List.flatten_cons, lastIdxScan_block _ _ _ _ h1 h2 h3 h4,
      ih (fun x hx => h x (by simp [hx])), List.foldl_cons]

theorem getLastD_map_take (blocks : List SrtBlock) (N : Nat)
    (h1 : 1 ≤ N) (h2 : N ≤ blocks.length)
    (hids : ∀ i (hi : i < blocks.length), blocks[i].idx = (i : Int) + 1) :
    ((blocks.take N).map (fun b => b.idx)).getLastD 0 = (N : Int) := by
  have hlen : ((blocks.take N).map (fun b => b.idx)).length = N := by
    simp [List.length_take]
    omega
  have hpos : N - 1 < ((blocks.take N).map (fun b => b.idx)).length := by omega
  rw [List.getLastD_eq_getLast?, List.getLast?_eq_getElem?, hlen,
    List.getElem?_eq_getElem hpos]
  rw [List.getElem_map, List.getElem_take]
  rw [hids (N - 1) (by omega)]
  simp
  omega

theorem idx_mem_take (blocks : List SrtBlock) (N : Nat) (hN : N ≤ blocks.length)
    (hids : ∀ i (hi : i < blocks.length), blocks[i].idx = (i : Int) + 1) :
    ∀ b ∈ blocks.take N, b.idx ≤ (N : Int) := by
  intro b hb
  obtain ⟨i, hi, hbi⟩ := List.getElem_of_mem hb
  have hiN : i < N := by
    rw [List.length_take] at hi
    omega
  rw [List.getElem_take] at hbi
  rw [← hbi, hids i (by omega)]
  omega

theorem idx_mem_drop (blocks : List SrtBlock) (N : Nat)
    (hids : ∀ i (hi : i < blocks.length), blocks[i].idx = (i : Int) + 1) :
    ∀ b ∈ blocks.drop N, (N : Int) < b.idx := by
  intro b hb
  obtain ⟨i, hi, hbi⟩ := List.getElem_of_mem hb
  rw [List.getElem_drop] at hbi
  have hlt : N + i < blocks.length := by
    rw [List.length_drop] at hi
    omega
  rw [← hbi, hids (N + i) hlt]
  push_cast
  omega

/-- C6: with units 1..N fully written to the output and input units 1..M
(N < M), the recovered resume point is N, exactly the units with id above N
form the todo set (and the planned batches cover exactly those), a unit
counts as done iff its id is at most N, and the file is opened in append
mode. -/
theorem c6_resume_filter (blocks : List SrtBlock) (ws : List (SrtBlock × List Str))
    (N : Nat) (mb mc : Int)
    (hids : ∀ i (hi : i < blocks.length), blocks[i].idx = (i : Int) + 1)
    (hN1 : 1 ≤ N) (hNM : N < blocks.length)
    (hws : ws.map (fun e => e.1) = blocks.take N)
    (hclean : ∀ e ∈ ws, ('\n' ∉ e.1.time ∧ strIn "-->".toList e.1.time = true) ∧
      (∀ l ∈ e.2, '\n' ∉ l ∧ pyIsdigit (pyStrip l) = false) ∧
      (∀ l ∈ e.1.lines, '\n' ∉ l ∧ pyIsdigit (pyStrip l) = false)) :
    resumeDone true (writesText ws) = (N : Int) ∧
    todoOf blocks (N : Int) = blocks.drop N ∧
    (∀ b ∈ blocks, (b ∈ todoOf blocks (N : Int) ↔ ¬ b.idx ≤ (N : Int))) ∧
    (split_batches (todoOf blocks (N : Int)) mb mc).flatten = blocks.drop N ∧
    openAppend (N : Int) = true := by
  have hidx1 : ∀ e ∈ ws, 1 ≤ e.1.idx := by
    intro e he
    have hmem : e.1 ∈ blocks.take N := by
      rw [← hws]
      exact List.mem_map_of_mem _ he
    obtain ⟨i, hi, hbi⟩ := List.getElem_of_mem hmem
    rw [List.getElem_take] at hbi
    have hlen : i < blocks.length := by
      rw [List.length_take] at hi
      omega
    rw [← hbi, hids i hlen]
    omega
  have hfirst : resumeDone true (writesText ws) = (N : Int) := by
    rw [resumeDone, if_pos rfl, last_idx_in_srt]
    rw [splitlines_writesText ws (by
      intro e he
      obtain ⟨⟨ha, _⟩, hb, hc⟩ := hclean e he
      exact ⟨ha, fun x hx => (hb x hx).1, fun x hx => (hc x hx).1⟩)]
    rw [lastIdxScan_writes ws (by
      intro e he
      obtain ⟨⟨_, ha⟩, hb, hc⟩ := hclean e he
      exact ⟨hidx1 e he, ha, fun x hx => (hb x hx).2, fun x hx => (hc x hx).2⟩)]
    rw [foldl_getLastD]
    have hmm : ws.map (fun e => e.1.idx) = (blocks.take N).map (fun b => b.idx) := by
      rw [← hws, List.map_map]
      rfl
    rw [hmm]
    exact getLastD_map_take blocks N hN1 (by omega) hids
  have hsecond : todoOf blocks (N : Int) = blocks.drop N := by
    rw [todoOf]
    conv_lhs => rw [← List.take_append_drop N blocks]
    rw [List.filter_append]
    have htake : (blocks.take N).filter (fun b => b.idx > (N : Int)) = [] := by
      rw [List.filter_eq_nil_iff]
      intro b hb
      have := idx_mem_take blocks N (by omega) hids b hb
      simp
      omega
    have hdrop : (blocks.drop N).filter (fun b => b.idx > (N : Int)) =
        blocks.drop N := by
      rw [List.filter_eq_self]
      intro b hb
      have := idx_mem_drop blocks N hids b hb
      simp
      omega
    rw [htake, hdrop, List.nil_append]
  refine ⟨hfirst, hsecond, ?_, ?_, ?_⟩
  · intro b hb
    rw [todoOf, List.mem_filter]
    constructor
    · rintro ⟨_, hgt⟩
      simp at hgt
      omega
    · intro hgt
      refine ⟨hb, ?_⟩
      simp
      omega
  · rw [hsecond]
    have h := splitGo_flatten mb mc (blocks.drop N) [] 0
    simpa [split_batches] using h
  · rw [openAppend]
    simp
    omega

/-- C6 witness: six units with units 1 and 2 already written; the resume
point is 2 and units 3..6 form the todo set. -/
theorem c6_resume_filter_witness :
    resumeDone true (writesText wsW6) = (2 : Int) ∧
    todoOf todoW (2 : Int) = todoW.drop 2 ∧
    (∀ b ∈ todoW, (b ∈ todoOf todoW (2 : Int) ↔ ¬ b.idx ≤ (2 : Int))) ∧
    (split_batches (todoOf todoW (2 : Int)) 2 1000).flatten = todoW.drop 2 ∧
    openAppend (2 : Int) = true :=
  c6_resume_filter todoW wsW6 2 2 1000 (by decide) (by decide) (by decide)
    (by decide) (by decide)

-- ======= Translation-map lemmas =======

theorem lookupZ_isSome_iff_keys (m : ZhMap) (k : Int) :
    (lookupZ m k).isSome = true ↔ k ∈ keysZ m := by
  induction m with
  | nil => simp [lookupZ, keysZ]
  | cons e rest ih =>
    by_cases he : e.1 = k
    · rw [lookupZ, List.find?_cons_of_pos _ (by simpa using he)]
      simp [keysZ, he]
    · rw [lookupZ, List.find?_cons_of_neg _ (by simpa using he)]
      rw [lookupZ] at ih
      rw [ih]
      simp [keysZ]
      intro hc
      exact absurd hc.symm he

theorem lookupZ_map_replace (m : ZhMap) (k : Int) (v : List Str)
    (h : m.any (fun e => e.1 = k) = true) :
    lookupZ (m.map (fun e => if e.1 = k then (k, v) else e)) k = some v := by
  induction m with
  | nil => simp at h
  | cons e rest ih =>
    by_cases he : e.1 = k
    · rw [List.map_cons, if_pos he, lookupZ, List.find?_cons_of_pos _ (by simp)]
      rfl
    · rw [List.map_cons, if_neg he, lookupZ,
        List.find?_cons_of_neg _ (by simpa using he)]
      rw [List.any_cons, Bool.or_eq_true] at h
      rcases h with h1 | h1
      · exact absurd (by simpa using h1) he
      · rw [lookupZ] at ih
        exact ih h1

theorem lookupZ_map_replace_ne (m : ZhMap) (k j : Int) (v : List Str)
    (h : j ≠ k) :
    lookupZ (m.map (fun e => if e.1 = k then (k, v) else e)) j = lookupZ m j := by
  induction m with
  | nil => simp [lookupZ]
  | cons e rest ih =>
    by_cases hej : e.1 = j
    · have hek : ¬ e.1 = k := fun hc => h (hej ▸ hc ▸ rfl)
      rw [List.map_cons, if_neg hek, lookupZ,
        List.find?_cons_of_pos _ (by simpa using hej), lookupZ,
        List.find?_cons_of_pos _ (by simpa using hej)]
    · rw [List.map_cons, lookupZ]
      have hne : ¬ ((if e.1 = k then (k, v) else e).1 = j) := by
        split
        · simpa using Ne.symm h
        · simpa using hej
      rw [List.find?_cons_of_neg _ (by simpa using hne), lookupZ,
        List.find?_cons_of_neg _ (by simpa using hej)]
      rw [lookupZ, lookupZ] at ih
      exact ih

theorem lookupZ_setk_self (m : ZhMap) (k : Int) (v : List Str) :
    lookupZ (setk m k v) k = some v := by
  rw [setk]
  split
  · exact lookupZ_map_replace m k v (by assumption)
  · rename_i hany
    have hf : m.find? (fun e => e.1 = k) = none := by
      rw [List.find?_eq_none]
      intro e he hc
      exact hany (List.any_eq_true.mpr ⟨e, he, hc⟩)
    rw [lookupZ, List.find?_append, hf]
    simp [List.find?]

theorem lookupZ_setk_ne (m : ZhMap) (k j : Int) (v : List Str) (h : j ≠ k) :
    lookupZ (setk m k v) j = lookupZ m j := by
  rw [setk]
  split
  · exact lookupZ_map_replace_ne m k j v h
  · have hf : List.find? (fun e => e.1 = j) [(k, v)] = none := by
      rw [List.find?_cons_of_neg _ (by simpa using Ne.symm h)]
      rfl
    rw [lookupZ, List.find?_append, hf, lookupZ]
    simp

theorem fillMissing_resolves (cfg : Cfg) (oneOr : Str → Str) :
    ∀ (bs : List SrtBlock) (missing : List Int) (zh zh2 : ZhMap)
      (calls : List Int),
      fillMissing cfg oneOr bs missing zh = .ok (zh2, calls) →
      (bs.map (fun b => b.idx)).Nodup →
      (calls = (bs.filter (fun b => b.idx ∈ missing)).map (fun b => b.idx)) ∧
      (∀ b ∈ bs, b.idx ∈ missing →
        ∃ v flag, translate_one cfg oneOr b.lines = .ok (v, flag) ∧
          lookupZ zh2 b.idx = some v) ∧
      (∀ k, k ∉ (bs.map (fun b => b.idx)) → lookupZ zh2 k = lookupZ zh k) := by
  intro bs
  induction bs with
  | nil =>
    intro missing zh zh2 calls hok _
    rw [fillMissing] at hok
    cases hok
    refine ⟨by simp, by simp, fun k _ => rfl⟩
  | cons b bs ih =>
    intro missing zh zh2 calls hok hnd
    rw [List.map_cons, List.nodup_cons] at hnd
    rw [fillMissing] at hok
    split at hok
    · rename_i hbm
      cases hto : translate_one cfg oneOr b.lines with
      | error e => rw [hto] at hok; simp at hok
      | ok p =>
        rw [hto] at hok
        have hok2 : (match fillMissing cfg oneOr bs missing (setk zh b.idx p.1) with
            | Except.error e => Except.error e
            | Except.ok (zh3, calls3) =>
              Except.ok (zh3, b.idx :: calls3)) = Except.ok (zh2, calls) := hok
        clear hok
        cases hfm : fillMissing cfg oneOr bs missing (setk zh b.idx p.1) with
        | error e => rw [hfm] at hok2; simp at hok2
        | ok q =>
          rw [hfm] at hok2
          simp at hok2
          obtain ⟨hzh2, hcalls⟩ := hok2
          obtain ⟨hc1, hc2, hc3⟩ := ih missing _ q.1 q.2 (by rw [hfm]) hnd.2
          refine ⟨?_, ?_, ?_⟩
          · rw [← hcalls, List.filter_cons_of_pos (by simpa using hbm),
              List.map_cons, hc1]
          · intro x hx hxm
            rcases List.mem_cons.mp hx with h1 | h1
            · subst h1
              refine ⟨p.1, p.2, by rw [hto], ?_⟩
              rw [← hzh2, hc3 x.idx hnd.1, lookupZ_setk_self]
            · obtain ⟨v, flag, hv1, hv2⟩ := hc2 x h1 hxm
              exact ⟨v, flag, hv1, by rw [← hzh2]; exact hv2⟩
          · intro k hk
            have hkb : k ≠ b.idx := fun hc => hk (by simp [hc])
            have hkbs : k ∉ bs.map (fun b => b.idx) := fun hc => hk (by simp [hc])
            rw [← hzh2, hc3 k hkbs]
            exact lookupZ_setk_ne zh b.idx k p.1 hkb
    · rename_i hbm
      obtain ⟨hc1, hc2, hc3⟩ := ih missing zh zh2 calls hok hnd.2
      refine ⟨?_, ?_, ?_⟩
      · rw [List.filter_cons_of_neg (by simpa using hbm), hc1]
      · intro x hx hxm
        rcases List.mem_cons.mp hx with h1 | h1
        · subst h1
          exact absurd hxm hbm
        · exact hc2 x h1 hxm
      · intro k hk
        exact hc3 k (fun hc => hk (by simp at hc ⊢; exact Or.inr hc))

theorem count_filter_map_idx (missing : List Int) :
    ∀ (bs : List SrtBlock), (bs.map (fun b => b.idx)).Nodup → ∀ k : Int,
      ((bs.filter (fun b => b.idx ∈ missing)).map (fun b => b.idx)).count k =
        if k ∈ missing ∧ k ∈ bs.map (fun b => b.idx) then 1 else 0 := by
  intro bs
  induction bs with
  | nil =>
    intro _ k
    rw [if_neg (by simp)]
    simp
  | cons b bs ih =>
    intro hnd k
    rw [List.map_cons, List.nodup_cons] at hnd
    by_cases hbm : b.idx ∈ missing
    · rw [List.filter_cons_of_pos (by simpa using hbm), List.map_cons]
      by_cases hkb : k = b.idx
      · subst hkb
        rw [List.count_cons_self, ih hnd.2 b.idx, if_neg (by
          rintro ⟨_, hmem⟩
          exact hnd.1 hmem)]
        rw [if_pos ⟨hbm, by simp⟩]
      · rw [List.count_cons_of_ne hkb, ih hnd.2 k]
        by_cases hkm : k ∈ missing ∧ k ∈ bs.map (fun b => b.idx)
        · rw [if_pos hkm, if_pos ⟨hkm.1, by simp [hkm.2]⟩]
        · rw [if_neg hkm, if_neg (by
            rintro ⟨h1, h2⟩
            rcases List.mem_cons.mp h2 with h3 | h3
            · exact hkb h3
            · exact hkm ⟨h1, h3⟩)]
    · rw [List.filter_cons_of_neg (by simpa using hbm), ih hnd.2 k]
      by_cases hkm : k ∈ missing ∧ k ∈ bs.map (fun b => b.idx)
      · rw [if_pos hkm, if_pos ⟨hkm.1, by simp [hkm.2]⟩]
      · rw [if_neg hkm, if_neg (by
          rintro ⟨h1, h2⟩
          rcases List.mem_cons.mp h2 with h3 | h3
          · subst h3
            exact hbm h1
          · exact hkm ⟨h1, h3⟩)]

theorem fillMissing_preserves (cfg : Cfg) (oneOr : Str → Str) :
    ∀ (bs : List SrtBlock) (missing : List Int) (zh zh2 : ZhMap)
      (calls : List Int),
      fillMissing cfg oneOr bs missing zh = .ok (zh2, calls) →
      ∀ k, k ∉ missing → lookupZ zh2 k = lookupZ zh k := by
  intro bs
  induction bs with
  | nil =>
    intro missing zh zh2 calls hok k _
    rw [fillMissing] at hok
    cases hok
    rfl
  | cons b bs ih =>
    intro missing zh zh2 calls hok k hk
    rw [fillMissing] at hok
    split at hok
    · rename_i hmem
      cases hv : translate_one cfg oneOr b.lines with
      | error e =>
        rw [hv] at hok
        simp at hok
      | ok p =>
        rw [hv] at hok
        have hok2 : (match fillMissing cfg oneOr bs missing (setk zh b.idx p.1) with
            | Except.error e => Except.error e
            | Except.ok (zh3, calls3) =>
              Except.ok (zh3, b.idx :: calls3)) = Except.ok (zh2, calls) := hok
        clear hok
        cases hrec : fillMissing cfg oneOr bs missing (setk zh b.idx p.1) with
        | error e =>
          rw [hrec] at hok2
          simp at hok2
        | ok q =>
          rw [hrec] at hok2
          simp at hok2
          obtain ⟨hzh, _⟩ := hok2
          rw [← hzh, ih missing (setk zh b.idx p.1) q.1 q.2 (by rw [hrec]) k hk]
          exact lookupZ_setk_ne zh b.idx k p.1 (fun hc => hk (hc ▸ hmem))
    · exact ih missing zh zh2 calls hok k hk

theorem translate_batch_unfold (cfg : Cfg) (bOr oneOr : Str → Str)
    (blocks : List SrtBlock) (h : tfCfg cfg = .ok ()) :
    translate_batch cfg bOr oneOr blocks =
      (if missingOf blocks (parse_zh_map (bOr (mk_batch_text blocks))) = [] then
        .ok (parse_zh_map (bOr (mk_batch_text blocks)), [])
      else
        fillMissing cfg oneOr blocks
          (missingOf blocks (parse_zh_map (bOr (mk_batch_text blocks))))
          (parse_zh_map (bOr (mk_batch_text blocks)))) := by
  rw [translate_batch, h]

/-- C10: `translate_one` on an empty source-line list returns the empty list
immediately, issuing no network request (and touching no configuration). -/
theorem c10_translate_one_empty (cfg : Cfg) (oneOr : Str → Str) :
    translate_one cfg oneOr [] = .ok ([], false) := by
  rw [translate_one, if_pos rfl]

/-- C3: after a successful `translate_batch`, the mapping has an entry for
every unit id of the batch; the single-unit fallback runs exactly once per
id missing from the decoded reply, its result is bound directly, and a
missing unit with no text lines ends bound to the empty translation. -/
theorem c3_translate_batch_resolution (cfg : Cfg) (bOr oneOr : Str → Str)
    (blocks : List SrtBlock) (zh : ZhMap) (calls : List Int)
    (hok : translate_batch cfg bOr oneOr blocks = .ok (zh, calls))
    (hnd : (blocks.map (fun b => b.idx)).Nodup) :
    (∀ b ∈ blocks, (lookupZ zh b.idx).isSome) ∧
    (∀ k : Int, calls.count k =
      if k ∈ missingOf blocks (parse_zh_map (bOr (mk_batch_text blocks)))
        then 1 else 0) ∧
    (∀ b ∈ blocks,
      b.idx ∉ keysZ (parse_zh_map (bOr (mk_batch_text blocks))) →
      ∃ v flag, translate_one cfg oneOr b.lines = .ok (v, flag) ∧
        lookupZ zh b.idx = some v) ∧
    (∀ b ∈ blocks,
      b.idx ∉ keysZ (parse_zh_map (bOr (mk_batch_text blocks))) →
      b.lines = [] → lookupZ zh b.idx = some []) := by
  cases htf : tfCfg cfg with
  | error e =>
    rw [translate_batch, htf] at hok
    simp at hok
  | ok u =>
    cases u
    rw [translate_batch_unfold cfg bOr oneOr blocks htf] at hok
    have hmiss_mem : ∀ k : Int,
        k ∈ missingOf blocks (parse_zh_map (bOr (mk_batch_text blocks))) ↔
        k ∈ blocks.map (fun b => b.idx) ∧
          k ∉ keysZ (parse_zh_map (bOr (mk_batch_text blocks))) := by
      intro k
      rw [missingOf, List.mem_filter]
      simp
    split at hok
    · rename_i hempty
      simp at hok
      obtain ⟨hzh, hcalls⟩ := hok
      have hall : ∀ b ∈ blocks,
          b.idx ∈ keysZ (parse_zh_map (bOr (mk_batch_text blocks))) := by
        intro b hb
        by_contra hc
        have : b.idx ∈ missingOf blocks (parse_zh_map (bOr (mk_batch_text blocks))) :=
          (hmiss_mem b.idx).mpr ⟨List.mem_map_of_mem _ hb, hc⟩
        rw [hempty] at this
        simp at this
      refine ⟨?_, ?_, ?_, ?_⟩
      · intro b hb
        rw [← hzh]
        rw [lookupZ_isSome_iff_keys]
        exact hall b hb
      · intro k
        rw [hcalls, hempty]
        simp
      · intro b hb hc
        exact absurd (hall b hb) hc
      · intro b hb hc
        exact absurd (hall b hb) hc
    · rename_i hne
      obtain ⟨hc1, hc2, hc3⟩ :=
        fillMissing_resolves cfg oneOr blocks _ _ zh calls hok hnd
      refine ⟨?_, ?_, ?_, ?_⟩
      · intro b hb
        by_cases hmem : b.idx ∈
            missingOf blocks (parse_zh_map (bOr (mk_batch_text blocks)))
        · obtain ⟨v, flag, _, hv⟩ := hc2 b hb hmem
          rw [hv]
          rfl
        · have hkeys : b.idx ∈ keysZ (parse_zh_map (bOr (mk_batch_text blocks))) := by
            by_contra hc
            exact hmem ((hmiss_mem b.idx).mpr ⟨List.mem_map_of_mem _ hb, hc⟩)
          rw [fillMissing_preserves cfg oneOr blocks _ _ zh calls hok b.idx hmem]
          rw [lookupZ_isSome_iff_keys]
          exact hkeys
      · intro k
        rw [hc1, count_filter_map_idx _ blocks hnd k]
        by_cases hk : k ∈ missingOf blocks (parse_zh_map (bOr (mk_batch_text blocks)))
        · rw [if_pos hk, if_pos ⟨hk, ((hmiss_mem k).mp hk).1⟩]
        · rw [if_neg hk, if_neg (fun hc => hk hc.1)]
      · intro b hb hc
        exact hc2 b hb ((hmiss_mem b.idx).mpr ⟨List.mem_map_of_mem _ hb, hc⟩)
      · intro b hb hc hlines
        obtain ⟨v, flag, hv1, hv2⟩ :=
          hc2 b hb ((hmiss_mem b.idx).mpr ⟨List.mem_map_of_mem _ hb, hc⟩)
        rw [hlines, c10_translate_one_empty cfg oneOr] at hv1
        cases hv1
        exact hv2

theorem c3_translate_batch_resolution_witness :
    translate_batch cfgW bOrW3 oneOrW3 blocksW3 =
        .ok ([(1, [sW "NIHAO"]), (2, [sW "YO"])], [2]) ∧
    (blocksW3.map (fun b => b.idx)).Nodup ∧
    ((∀ b ∈ blocksW3,
        (lookupZ [(1, [sW "NIHAO"]), (2, [sW "YO"])] b.idx).isSome) ∧
     (∀ k : Int, ([2] : List Int).count k =
        if k ∈ missingOf blocksW3 (parse_zh_map (bOrW3 (mk_batch_text blocksW3)))
          then 1 else 0) ∧
     (∀ b ∈ blocksW3,
        b.idx ∉ keysZ (parse_zh_map (bOrW3 (mk_batch_text blocksW3))) →
        ∃ v flag, translate_one cfgW oneOrW3 b.lines = .ok (v, flag) ∧
          lookupZ [(1, [sW "NIHAO"]), (2, [sW "YO"])] b.idx = some v) ∧
     (∀ b ∈ blocksW3,
        b.idx ∉ keysZ (parse_zh_map (bOrW3 (mk_batch_text blocksW3))) →
        b.lines = [] →
        lookupZ [(1, [sW "NIHAO"]), (2, [sW "YO"])] b.idx = some [])) :=
  ⟨by decide, by decide,
    c3_translate_batch_resolution cfgW bOrW3 oneOrW3 blocksW3
      [(1, [sW "NIHAO"]), (2, [sW "YO"])] [2] (by decide) (by decide)⟩

theorem pyRstrip_idem (l : Str) : pyRstrip (pyRstrip l) = pyRstrip l := by
  rw [pyRstrip, pyRstrip, List.reverse_reverse, dropWhile_dropWhile]

theorem pyStrip_pyRstrip (l : Str) : pyStrip (pyRstrip l) = pyStrip l := by
  rw [pyStrip, pyStrip, pyRstrip_idem]

theorem segLines_nonblank (seg : Str) : ∀ x ∈ segLines seg, pyStrip x ≠ [] := by
  intro x hx
  rw [segLines] at hx
  rcases List.mem_map.mp hx with ⟨y, hy, hyx⟩
  rcases List.mem_filter.mp hy with ⟨_, hy2⟩
  rw [← hyx, pyStrip_pyRstrip]
  simpa using hy2

theorem segsOf_keys (cleaned : Str) : ∀ marks : List (Nat × Int),
    (segsOf cleaned marks).map (fun e => e.1) = marks.map (fun e => e.2) := by
  intro marks
  induction marks with
  | nil => rfl
  | cons a rest ih =>
    obtain ⟨p, idx⟩ := a
    simp only [segsOf, List.map_cons]
    rw [ih]

theorem segsOf_values (cleaned : Str) : ∀ (marks : List (Nat × Int)) e,
    e ∈ segsOf cleaned marks → ∀ x ∈ e.2, pyStrip x ≠ [] := by
  intro marks
  induction marks with
  | nil =>
    intro e he
    simp [segsOf] at he
  | cons a rest ih =>
    intro e he
    obtain ⟨p, idx⟩ := a
    simp only [segsOf] at he
    rcases List.mem_cons.mp he with h1 | h1
    · subst h1
      intro x hx
      exact segLines_nonblank _ x hx
    · exact ih e h1

theorem keysZ_setk (m : ZhMap) (k j : Int) (v : List Str) :
    j ∈ keysZ (setk m k v) ↔ (j ∈ keysZ m ∨ j = k) := by
  rw [← lookupZ_isSome_iff_keys, ← lookupZ_isSome_iff_keys]
  by_cases h : j = k
  · subst h
    rw [lookupZ_setk_self]
    simp
  · rw [lookupZ_setk_ne m k j v h]
    simp [h]

theorem keysZ_foldl_setk (l : List (Int × List Str)) :
    ∀ (m : ZhMap) (j : Int),
      j ∈ keysZ (l.foldl (fun m e => setk m e.1 e.2) m) ↔
        (j ∈ keysZ m ∨ j ∈ l.map (fun e => e.1)) := by
  induction l with
  | nil =>
    intro m j
    simp
  | cons e l ih =>
    intro m j
    rw [List.foldl_cons, ih (setk m e.1 e.2) j, keysZ_setk]
    simp
    tauto

theorem lookupZ_foldl_setk_mem (l : List (Int × List Str)) :
    ∀ (m : ZhMap) (k : Int) (v : List Str),
      lookupZ (l.foldl (fun m e => setk m e.1 e.2) m) k = some v →
      (k, v) ∈ l ∨ lookupZ m k = some v := by
  induction l with
  | nil =>
    intro m k v h
    exact Or.inr h
  | cons e l ih =>
    intro m k v h
    rcases ih (setk m e.1 e.2) k v h with h1 | h1
    · exact Or.inl (List.mem_cons_of_mem e h1)
    · by_cases hk : k = e.1
      · subst hk
        rw [lookupZ_setk_self] at h1
        cases h1
        exact Or.inl (by simp)
      · rw [lookupZ_setk_ne m e.1 k e.2 hk] at h1
        exact Or.inr h1

/-- C4 counterexample: in a reply whose first marker sits on a code-fence
line, the marker ids present in the raw response text are 1 and 2, yet the
decoded mapping lacks id 1 entirely and binds id 2 to the empty line
list. -/
theorem c4_counterexample :
    (findMarks contentW4 0).map (fun e => e.2) = [1, 2] ∧
    parse_zh_map contentW4 = [(2, [])] :=
  ⟨by decide, by decide⟩

/-- C4 (amended): the decoded mapping's keys are exactly the marker ids of
the fence-cleaned response (a marker destroyed by fence-line removal is
absent from the mapping), every binding is the inter-marker segment of the
cleaned text split into right-stripped lines, and every line of every bound
value is non-blank — although the bound line list itself may be empty when
the segment holds no content. -/
theorem c4_parse_zh_map_amended (content : Str) :
    (∀ k : Int, k ∈ keysZ (parse_zh_map content) ↔
        k ∈ (findMarks (cleanedOf content) 0).map (fun e => e.2)) ∧
    (∀ (k : Int) (v : List Str), lookupZ (parse_zh_map content) k = some v →
        (k, v) ∈ segsOf (cleanedOf content) (findMarks (cleanedOf content) 0) ∧
        ∀ x ∈ v, pyStrip x ≠ []) := by
  constructor
  · intro k
    rw [parse_zh_map, keysZ_foldl_setk,
      segsOf_keys (cleanedOf content) (findMarks (cleanedOf content) 0)]
    simp [keysZ]
  · intro k v h
    rw [parse_zh_map] at h
    rcases lookupZ_foldl_setk_mem _ [] k v h with h1 | h1
    · exact ⟨h1, fun x hx => segsOf_values (cleanedOf content) _ (k, v) h1 x hx⟩
    · simp [lookupZ] at h1

theorem c4_parse_zh_map_amended_witness :
    ((2 : Int) ∈ keysZ (parse_zh_map contentW4) ↔
      (2 : Int) ∈ (findMarks (cleanedOf contentW4) 0).map (fun e => e.2)) ∧
    (lookupZ (parse_zh_map contentW4) 2 = some [] →
      ((2 : Int), ([] : List Str)) ∈
        segsOf (cleanedOf contentW4) (findMarks (cleanedOf contentW4) 0) ∧
      ∀ x ∈ ([] : List Str), pyStrip x ≠ []) :=
  ⟨(c4_parse_zh_map_amended contentW4).1 2,
   (c4_parse_zh_map_amended contentW4).2 2 []⟩

/-- C8 counterexample: a configuration that names the input file but lacks
the model option sails past parsing; the run fails with the missing-key
error only inside the concurrent phase, after the parse checkpoint. -/
theorem c8_counterexample :
    (mainRun cfgW8 inputW false [] id id [0]).err = some "KeyError" ∧
    Ev.parse ∈ (mainRun cfgW8 inputW false [] id id [0]).trace :=
  ⟨by decide, by decide⟩

/-- C8 (amended): the input path is the only option read before parsing; a
configuration missing `in_srt` aborts with the missing-key error before the
parse checkpoint and leaves the output file untouched.  Other missing
options (such as the model name) fail only after parsing, inside the
workers. -/
theorem c8_config_errors (cfg : Cfg) (input : Str) (outExists : Bool)
    (outContent : Str) (bOr oneOr : Str → Str) (order : List Nat)
    (h : cfg.find? (fun e => e.1 = "in_srt") = none) :
    (mainRun cfg input outExists outContent bOr oneOr order).err =
      some "KeyError" ∧
    Ev.parse ∉ (mainRun cfg input outExists outContent bOr oneOr order).trace ∧
    (mainRun cfg input outExists outContent bOr oneOr order).file =
      (if outExists then some outContent else none) := by
  have h1 : cfgGet cfg "in_srt" = .error "KeyError" := by
    rw [cfgGet, h]
  simp only [mainRun, h1]
  simp

theorem c8_config_errors_witness :
    (([] : Cfg).find? (fun e => e.1 = "in_srt") = none) ∧
    ((mainRun [] inputW false [] id id [0]).err = some "KeyError" ∧
     Ev.parse ∉ (mainRun [] inputW false [] id id [0]).trace ∧
     (mainRun [] inputW false [] id id [0]).file =
       (if (false : Bool) then some ([] : Str) else none)) :=
  ⟨rfl, c8_config_errors [] inputW false [] id id [0] rfl⟩

/-- C9 counterexample: when the existing output file yields resume point 0
(no fully written unit), the run reopens it in truncate mode: the file's
prior content is not a prefix of the final content. -/
theorem c9_counterexample :
    (((mainRun cfgW inputW true (sW "x") id id [0, 1]).file.getD []).take 1 ≠
      sW "x") ∧
    (mainRun cfgW inputW true (sW "x") id id [0, 1]).file.isSome = true :=
  ⟨by decide, by decide⟩

/-- C9 (amended): whenever the recovered resume point is nonzero, the run
opens the existing file in append mode and its prior content survives as a
prefix of the final content — including on every error path, which leaves
the file unchanged.  At resume point zero an existing file is truncated
instead. -/
theorem c9_append_preserves (cfg : Cfg) (input : Str) (outContent : Str)
    (bOr oneOr : Str → Str) (order : List Nat)
    (h : last_idx_in_srt outContent ≠ 0) :
    ∃ f, (mainRun cfg input true outContent bOr oneOr order).file = some f ∧
      f.take outContent.length = outContent := by
  have hap : openAppend (resumeDone true outContent) = true := by
    rw [resumeDone, if_pos rfl, openAppend]
    simpa using h
  simp only [mainRun, hap]
  split
  · exact ⟨outContent, by simp, by simp⟩
  · split
    · exact ⟨outContent, by simp, by simp⟩
    · split
      · split
        · exact ⟨outContent, by simp, by simp⟩
        · exact ⟨outContent, by simp, by simp⟩
      · split
        · exact ⟨outContent, by simp, by simp⟩
        · split
          · exact ⟨outContent, by simp, by simp⟩
          · split
            · exact ⟨outContent, by simp, by simp⟩
            · split
              · exact ⟨outContent, by simp, by simp⟩
              · refine ⟨_, rfl, ?_⟩
                simp [List.take_left]

theorem c9_append_preserves_witness :
    last_idx_in_srt (writesText wsW6) ≠ 0 ∧
    ∃ f, (mainRun cfgW inputW true (writesText wsW6) id id [0]).file = some f ∧
      f.take (writesText wsW6).length = writesText wsW6 :=
  ⟨by decide, c9_append_preserves cfgW inputW (writesText wsW6) id id [0] (by decide)⟩
